import Mathlib

/-!
Shallow embedding of the recipe-graphql repository's core
(`src/repository/recipe.rs`, `src/route.rs`, `src/graphql.rs`).

The relational store is modelled as lists of rows.  Row shapes
(`pg::Recipe`, `pg::Ingredient`, `pg::RecipeIngredient`, the graphql
shapes and `gql::Recipe::from_pg`) live in the repository's `models`
module, which is not part of the given sources; they are modelled from
the spec's data-model section (surrogate ids, unique names, association
rows carrying a quantity, API shapes carrying name/quantity pairs).
Diesel query combinators are translated by their documented semantics:
`eq_any` is membership filtering, an inner join pairs each left row with
the (unique, by primary key) matching right row, `grouped_by` indexes
parents by id in a hash map (so for duplicated parents the last
occurrence wins) and distributes children to the indexed parent,
`on_conflict ... do_update` is an upsert which fails when a single bulk
statement carries two rows with the same conflict key, and
`conn.transaction` yields the untouched initial store on any error.
-/

/-- Persisted recipe row (`pg::Recipe`): surrogate id and unique name. -/
structure PgRecipe where
  id : Nat
  name : String
deriving DecidableEq

/-- Persisted ingredient row (`pg::Ingredient`): surrogate id and unique name. -/
structure PgIngredient where
  id : Nat
  name : String
deriving DecidableEq

/-- Association row (`pg::RecipeIngredient`): modelled from the spec by its
composite-unique key (recipe id, ingredient id) and the quantity attribute.
The insert shape `pg::NewRecipeIngredient` has the same fields
(recipe.rs lines 150-154). -/
structure PgRecipeIngredient where
  ingredient_id : Nat
  recipe_id : Nat
  qty : String
deriving DecidableEq

/-- API-facing ingredient entry, modelled from the spec: a (name, quantity)
pair; used both in the output `Recipe` shape and in the `NewRecipe` input
shape (`gql::NewIngredient` carries `name` and `qty`, see recipe.rs line 153). -/
structure GqlIngredient where
  name : String
  qty : String
deriving DecidableEq

/-- API-facing recipe (`gql::Recipe`), modelled from the spec: recipe name plus
a list of (ingredient name, quantity) pairs. -/
structure GqlRecipe where
  name : String
  ingredients : List GqlIngredient
deriving DecidableEq

/-- Input shape `gql::NewRecipe`: name and ingredient entries. -/
structure GqlNewRecipe where
  name : String
  ingredients : List GqlIngredient
deriving DecidableEq

/-- The relational store: one list of rows per table. -/
structure Store where
  recipes : List PgRecipe
  ingredients : List PgIngredient
  recipe_ingredients : List PgRecipeIngredient
deriving DecidableEq

/-- `FieldResult<T>`: success or a `FieldError`, whose observable payload here
is its message string. -/
abbrev FieldResult (α : Type) := Except String α

instance {ε α : Type} [DecidableEq ε] [DecidableEq α] : DecidableEq (Except ε α) := fun x y =>
  match x, y with
  | .ok a, .ok b =>
    if h : a = b then .isTrue (by rw [h]) else .isFalse (fun hc => h (Except.ok.inj hc))
  | .error a, .error b =>
    if h : a = b then .isTrue (by rw [h]) else .isFalse (fun hc => h (Except.error.inj hc))
  | .ok _, .error _ => .isFalse (fun hc => Except.noConfusion hc)
  | .error _, .ok _ => .isFalse (fun hc => Except.noConfusion hc)

/-- Modelled from the spec: `gql::Recipe::from_pg` maps one recipe row and its
joined (association, ingredient) pairs to the API shape, keeping the pairs'
order. -/
def GqlRecipe.from_pg (r : PgRecipe) (ings : List (PgRecipeIngredient × PgIngredient)) : GqlRecipe :=
  { name := r.name
    ingredients := ings.map (fun p => { name := p.2.name, qty := p.1.qty }) }

/-- Inner join of association rows with the `ingredients` table: each
association is paired with the ingredient row carrying its foreign key
(unique by primary key). -/
def joinIngredients (s : Store) (assocs : List PgRecipeIngredient) :
    List (PgRecipeIngredient × PgIngredient) :=
  assocs.filterMap (fun a =>
    (s.ingredients.find? (fun i => i.id = a.ingredient_id)).map (fun i => (a, i)))

/-- Inner join of association rows with the `recipes` table, keeping one output
row per association row (this is what lets a recipe occur several times in the
candidate list of `get_recipes_by_ingredient_names`). -/
def joinRecipes (s : Store) (assocs : List PgRecipeIngredient) : List PgRecipe :=
  assocs.filterMap (fun a => s.recipes.find? (fun r => r.id = a.recipe_id))

/-- Index that diesel's `grouped_by` hash map assigns to a parent id: the index
of the LAST parent row with that id (collecting `(id, index)` pairs into a hash
map lets later indices overwrite earlier ones). -/
def lastIdxOf (parents : List PgRecipe) (rid : Nat) : Option Nat :=
  match parents with
  | [] => none
  | p :: rest =>
    match lastIdxOf rest rid with
    | some j => some (j + 1)
    | none => if p.id = rid then some 0 else none

/-- Diesel's `grouped_by`: children are distributed to the parent index their
foreign key hashes to; a duplicated parent's earlier occurrences receive no
children. -/
def groupedBy (children : List (PgRecipeIngredient × PgIngredient))
    (parents : List PgRecipe) : List (List (PgRecipeIngredient × PgIngredient)) :=
  (List.range parents.length).map (fun i =>
    children.filter (fun c => lastIdxOf parents c.1.recipe_id = some i))

/-- `RecipeIngredient::belonging_to(&pg_recipes).inner_join(ingredients)`:
all association rows of any of the given parents, joined with their
ingredient rows. -/
def childPairs (s : Store) (parents : List PgRecipe) :
    List (PgRecipeIngredient × PgIngredient) :=
  joinIngredients s
    (s.recipe_ingredients.filter (fun a => parents.any (fun r => r.id = a.recipe_id)))

/-- All (association, ingredient) pairs of one recipe: its full ingredient
list as fetched by `RecipeIngredient::belonging_to(&r).inner_join(ingredients)`. -/
def recipePairs (s : Store) (rid : Nat) : List (PgRecipeIngredient × PgIngredient) :=
  joinIngredients s (s.recipe_ingredients.filter (fun a => a.recipe_id = rid))

/-- Error message of recipe.rs line 40. -/
def noRecipeMsg (recipe_name : String) : String :=
  "No recipe with name " ++ recipe_name

/-- Error message of recipe.rs lines 62-65. -/
def noIngredientMsg (ingredient_name : String) : String :=
  "No ingredient with name " ++ ingredient_name

/-- Error message of recipe.rs lines 92-97: carries the requested names and the
debug rendering of the resolved ingredient rows. -/
def notAllFoundMsg (wanted : List String) (found : List PgIngredient) : String :=
  "Not all ingredients found. Wanted: " ++ toString wanted ++ ". Found: " ++
    toString (found.map (fun i => "Ingredient(" ++ toString i.id ++ ", " ++ i.name ++ ")"))

/-- `RecipeRepository::get_recipe_by_name` (recipe.rs lines 21-42). -/
def get_recipe_by_name (s : Store) (recipe_name : String) :
    FieldResult (Option GqlRecipe) :=
  match s.recipes.find? (fun r => r.name = recipe_name) with
  | some r => .ok (some (GqlRecipe.from_pg r (recipePairs s r.id)))
  | none => .error (noRecipeMsg recipe_name)

/-- `RecipeRepository::get_recipes_by_ingredient_name` (recipe.rs lines 44-80). -/
def get_recipes_by_ingredient_name (s : Store) (ingredient_name : String) :
    FieldResult (List GqlRecipe) :=
  match s.ingredients.find? (fun i => i.name = ingredient_name) with
  | none => .error (noIngredientMsg ingredient_name)
  | some ing =>
    let pg_recipes :=
      joinRecipes s (s.recipe_ingredients.filter (fun a => a.ingredient_id = ing.id))
    let grouped := groupedBy (childPairs s pg_recipes) pg_recipes
    .ok ((pg_recipes.zip grouped).map (fun p => GqlRecipe.from_pg p.1 p.2))

/-- `eq_any` resolution of recipe.rs lines 86-90: all ingredient rows whose
name is among the requested names. -/
def resolveIngredients (s : Store) (ingredient_names : List String) : List PgIngredient :=
  s.ingredients.filter (fun i => ingredient_names.any (fun n => i.name = n))

/-- Candidate fetch of recipe.rs lines 99-103:
`RecipeIngredient::belonging_to(&pg_ingredients).inner_join(recipes)` — one
recipe row per association with any resolved ingredient. -/
def candidateRecipes (s : Store) (pg_ingredients : List PgIngredient) : List PgRecipe :=
  joinRecipes s (s.recipe_ingredients.filter
    (fun a => pg_ingredients.any (fun i => i.id = a.ingredient_id)))

/-- Grouping and superset filter of recipe.rs lines 105-116: candidate recipes
zipped with their grouped ingredient pairs, keeping those whose pair list
contains every resolved ingredient. -/
def byNamesKept (s : Store) (pg_ingredients : List PgIngredient) :
    List (List (PgRecipeIngredient × PgIngredient) × PgRecipe) :=
  let pg_recipes := candidateRecipes s pg_ingredients
  ((groupedBy (childPairs s pg_recipes) pg_recipes).zip pg_recipes).filter
    (fun p => pg_ingredients.all (fun ing => (p.1.map Prod.snd).any (fun f => f = ing)))

/-- `RecipeRepository::get_recipes_by_ingredient_names` (recipe.rs lines 82-124). -/
def get_recipes_by_ingredient_names (s : Store) (ingredient_names : List String) :
    FieldResult (List GqlRecipe) :=
  let pg_ingredients := resolveIngredients s ingredient_names
  if ingredient_names.length ≠ pg_ingredients.length then
    .error (notAllFoundMsg ingredient_names pg_ingredients)
  else
    .ok ((byNamesKept s pg_ingredients).map (fun p => GqlRecipe.from_pg p.2 p.1))

/-- Fresh surrogate id for a recipe insert. -/
def nextRecipeId (s : Store) : Nat :=
  (s.recipes.map (fun r => r.id)).foldr max 0 + 1

/-- Fresh surrogate id for an ingredient insert. -/
def nextIngredientId (s : Store) : Nat :=
  (s.ingredients.map (fun i => i.id)).foldr max 0 + 1

/-- Step 1 of `insert_recipe` (recipe.rs lines 128-135): upsert the recipe by
name; on conflict the update writes back the conflicting name, so the existing
row is returned unchanged. -/
def upsert_recipe (s : Store) (recipe : GqlNewRecipe) : PgRecipe × Store :=
  match s.recipes.find? (fun r => r.name = recipe.name) with
  | some r => (r, s)
  | none =>
    let r : PgRecipe := { id := nextRecipeId s, name := recipe.name }
    (r, { s with recipes := s.recipes ++ [r] })

/-- Error raised by Postgres when one bulk `ON CONFLICT DO UPDATE` statement
carries two rows with the same conflict key. -/
def cannotAffectRowTwiceMsg : String :=
  "ON CONFLICT DO UPDATE command cannot affect row a second time"

/-- Sequential core of the ingredient bulk upsert: each value row either
resolves to the existing row with its name or is freshly inserted; returned
rows are order-aligned with the input. -/
def upsert_ingredients_go (s : Store) : List GqlIngredient → List PgIngredient × Store
  | [] => ([], s)
  | ni :: rest =>
    match s.ingredients.find? (fun i => i.name = ni.name) with
    | some row =>
      let p := upsert_ingredients_go s rest
      (row :: p.1, p.2)
    | none =>
      let row : PgIngredient := { id := nextIngredientId s, name := ni.name }
      let p := upsert_ingredients_go
        { s with ingredients := s.ingredients ++ [row] } rest
      (row :: p.1, p.2)

/-- Step 2 of `insert_recipe` (recipe.rs lines 137-144): bulk upsert of the
ingredients by name. -/
def upsert_ingredients (s : Store) (ings : List GqlIngredient) :
    FieldResult (List PgIngredient × Store) :=
  if (ings.map (fun i => i.name)).Nodup then .ok (upsert_ingredients_go s ings)
  else .error cannotAffectRowTwiceMsg

/-- Conflict target of the association upsert. -/
def assocKey (a : PgRecipeIngredient) : Nat × Nat :=
  (a.recipe_id, a.ingredient_id)

/-- Sequential core of the association bulk upsert: on key conflict the
existing row's quantity is updated in place, otherwise the row is inserted;
returned rows are order-aligned with the input. -/
def upsert_assocs_go (s : Store) : List PgRecipeIngredient → List PgRecipeIngredient × Store
  | [] => ([], s)
  | na :: rest =>
    if s.recipe_ingredients.any (fun a => assocKey a = assocKey na) then
      let p := upsert_assocs_go
        { s with recipe_ingredients :=
            s.recipe_ingredients.map (fun a => if assocKey a = assocKey na then na else a) } rest
      (na :: p.1, p.2)
    else
      let p := upsert_assocs_go
        { s with recipe_ingredients := s.recipe_ingredients ++ [na] } rest
      (na :: p.1, p.2)

/-- Step 3 of `insert_recipe` (recipe.rs lines 157-164): bulk upsert of the
association rows with conflict target (recipe id, ingredient id). -/
def upsert_recipe_ingredients (s : Store) (rows : List PgRecipeIngredient) :
    FieldResult (List PgRecipeIngredient × Store) :=
  if (rows.map assocKey).Nodup then .ok (upsert_assocs_go s rows)
  else .error cannotAffectRowTwiceMsg

/-- The body of the `insert_recipe` transaction closure (recipe.rs
lines 127-177): the three writes in order, threading the store; each `?`
early-returns the error. -/
def insert_recipe_steps (s : Store) (recipe : GqlNewRecipe) :
    FieldResult (GqlRecipe × Store) :=
  let p1 := upsert_recipe s recipe
  match upsert_ingredients p1.2 recipe.ingredients with
  | .error e => .error e
  | .ok p2 =>
    let new_recipe_ingredients : List PgRecipeIngredient :=
      (p2.1.zip recipe.ingredients).map
        (fun q => { ingredient_id := q.1.id, recipe_id := p1.1.id, qty := q.2.qty })
    match upsert_recipe_ingredients p2.2 new_recipe_ingredients with
    | .error e => .error e
    | .ok p3 => .ok (GqlRecipe.from_pg p1.1 (p3.1.zip p2.1), p3.2)

/-- `conn.transaction`: on success the writes are committed, on error the
store is rolled back to its initial state. -/
def transaction {α : Type} (f : Store → FieldResult (α × Store)) (s : Store) :
    FieldResult α × Store :=
  match f s with
  | .ok (a, s1) => (.ok a, s1)
  | .error e => (.error e, s)

/-- `RecipeRepository::insert_recipe` (recipe.rs lines 126-178): the three
writes inside one transaction; the returned store is the observable state
after the call. -/
def insert_recipe (s : Store) (recipe : GqlNewRecipe) : FieldResult GqlRecipe × Store :=
  transaction (fun c => insert_recipe_steps c recipe) s

/-! Named views of the stages of a successful `insert_recipe`, used to state
lemmas about it; each is definitionally the corresponding stage above. -/

/-- The recipe row captured by step 1 of `insert_recipe`. -/
abbrev insRecipeRow (s : Store) (nr : GqlNewRecipe) : PgRecipe :=
  (upsert_recipe s nr).1

/-- Returned rows and store state after the ingredient bulk upsert (step 2). -/
abbrev insIngsPair (s : Store) (nr : GqlNewRecipe) : List PgIngredient × Store :=
  upsert_ingredients_go (upsert_recipe s nr).2 nr.ingredients

/-- The association rows built from steps 1 and 2 (recipe.rs lines 146-155). -/
abbrev newAssocRows (s : Store) (nr : GqlNewRecipe) : List PgRecipeIngredient :=
  ((insIngsPair s nr).1.zip nr.ingredients).map
    (fun q => { ingredient_id := q.1.id, recipe_id := (insRecipeRow s nr).id, qty := q.2.qty })

/-- Returned rows and store state after the association bulk upsert (step 3). -/
abbrev insAssocsPair (s : Store) (nr : GqlNewRecipe) : List PgRecipeIngredient × Store :=
  upsert_assocs_go (insIngsPair s nr).2 (newAssocRows s nr)

/-- Rust's `str::split` specialised to the two-character pattern "##": scan
left to right, cut at each non-overlapping occurrence of the pattern; the
segments between (and around) the cuts are the output.  Splitting the empty
string yields one empty segment, like the Rust iterator. -/
def splitHashHash : List Char → List (List Char)
  | [] => [[]]
  | '#' :: '#' :: rest => [] :: splitHashHash rest
  | c :: rest =>
    match splitHashHash rest with
    | seg :: segs => (c :: seg) :: segs
    | [] => [[c]]

/-- The segment list `token_cookie.split("##")` of route.rs line 59. -/
def splitSegments (token_cookie : String) : List String :=
  (splitHashHash token_cookie.data).map String.mk

/-- `parse_session_cookie` (route.rs lines 58-64): split on the two-character
delimiter and take the first two segments. -/
def parse_session_cookie (token_cookie : String) : Option String × Option String :=
  let splitted := splitSegments token_cookie
  match splitted.get? 0, splitted.get? 1 with
  | some user, some token => (some user, some token)
  | _, _ => (none, none)

/-- Store well-formedness: the schema constraints the backing database
enforces (primary-key uniqueness, unique names, the composite-unique
constraint on associations, referential integrity of associations). -/
def WF (s : Store) : Prop :=
  (s.recipes.map (fun r => r.id)).Nodup ∧
  (s.recipes.map (fun r => r.name)).Nodup ∧
  (s.ingredients.map (fun i => i.id)).Nodup ∧
  (s.ingredients.map (fun i => i.name)).Nodup ∧
  (s.recipe_ingredients.map assocKey).Nodup ∧
  (∀ a ∈ s.recipe_ingredients,
    (∃ r ∈ s.recipes, r.id = a.recipe_id) ∧ (∃ i ∈ s.ingredients, i.id = a.ingredient_id))

instance (s : Store) : Decidable (WF s) := by
  unfold WF; infer_instance

/-! Concrete stores and inputs used to instantiate the theorems. -/

/-- A store holding one recipe and the ingredient Flour. -/
def storeC1 : Store :=
  { recipes := [⟨1, "Pancakes"⟩]
    ingredients := [⟨1, "Flour"⟩]
    recipe_ingredients := [⟨1, 1, "2 cups"⟩] }

/-- Pancakes uses Flour, Egg and Milk; Omelette uses only Egg. -/
def storeC2 : Store :=
  { recipes := [⟨1, "Pancakes"⟩, ⟨2, "Omelette"⟩]
    ingredients := [⟨1, "Flour"⟩, ⟨2, "Egg"⟩, ⟨3, "Milk"⟩]
    recipe_ingredients := [⟨1, 1, "2 cups"⟩, ⟨2, 1, "2"⟩, ⟨3, 1, "1 cup"⟩, ⟨2, 2, "3"⟩] }

/-- A small nonempty store for the rollback witness. -/
def storeC3 : Store :=
  { recipes := [⟨1, "Soup"⟩]
    ingredients := [⟨1, "Salt"⟩]
    recipe_ingredients := [⟨1, 1, "1 tsp"⟩] }

/-- A recipe whose ingredient list repeats a name: the bulk ingredient upsert
fails after the recipe row was already written inside the transaction. -/
def newRecipeC3 : GqlNewRecipe :=
  { name := "Toast", ingredients := [⟨"Bread", "1"⟩, ⟨"Bread", "2"⟩] }

/-- Cake already exists and is associated with Sugar. -/
def storeC4 : Store :=
  { recipes := [⟨1, "Cake"⟩]
    ingredients := [⟨1, "Sugar"⟩]
    recipe_ingredients := [⟨1, 1, "1 cup"⟩] }

/-- Re-insert Cake with only Flour: the old Sugar association survives. -/
def newRecipeC4 : GqlNewRecipe :=
  { name := "Cake", ingredients := [⟨"Flour", "2 cups"⟩] }

/-- Fresh-name insert used for the amended round-trip witness. -/
def newRecipeC4b : GqlNewRecipe :=
  { name := "Pancakes", ingredients := [⟨"Flour", "2 cups"⟩, ⟨"Egg", "2"⟩] }

/-- First insert of the idempotent-upsert scenario. -/
def newRecipeC5a : GqlNewRecipe :=
  { name := "Pie", ingredients := [⟨"Apple", "3"⟩, ⟨"Flour", "1 cup"⟩] }

/-- Second insert: same recipe name and ingredient names, Apple quantity changed. -/
def newRecipeC5b : GqlNewRecipe :=
  { name := "Pie", ingredients := [⟨"Apple", "4"⟩, ⟨"Flour", "1 cup"⟩] }

/-! Helper lemmas about keyed lookup, the joins and the grouping. -/

theorem find?_key_unique {α β : Type} [DecidableEq β] (f : α → β) {l : List α}
    (hl : (l.map f).Nodup) {a : α} (ha : a ∈ l) {v : β} (hv : f a = v) :
    l.find? (fun x => f x = v) = some a := by
  subst hv
  have hsome : (l.find? (fun x => f x = f a)).isSome := by
    rw [List.find?_isSome]
    exact ⟨a, ha, by simp⟩
  obtain ⟨b, hb⟩ := Option.isSome_iff_exists.mp hsome
  have hmem := List.mem_of_find?_eq_some hb
  have hfb : f b = f a := by simpa using List.find?_some hb
  rw [hb]
  exact congrArg some (List.inj_on_of_nodup_map hl hmem ha hfb)

theorem joinIngredients_filter (s : Store) (l : List PgRecipeIngredient)
    (q : PgRecipeIngredient → Bool) :
    (joinIngredients s l).filter (fun c => q c.1) = joinIngredients s (l.filter q) := by
  induction l with
  | nil => rfl
  | cons a t ih =>
    unfold joinIngredients at ih ⊢
    cases hf : s.ingredients.find? (fun i => i.id = a.ingredient_id) <;>
      cases hq : q a <;>
      simp [List.filterMap_cons, List.filter_cons, hf, hq, ih]

theorem mem_joinIngredients {s : Store} {l : List PgRecipeIngredient}
    {c : PgRecipeIngredient × PgIngredient} :
    c ∈ joinIngredients s l ↔
      c.1 ∈ l ∧ s.ingredients.find? (fun i => i.id = c.1.ingredient_id) = some c.2 := by
  unfold joinIngredients
  rw [List.mem_filterMap]
  constructor
  · rintro ⟨a, ha, hfa⟩
    cases hf : s.ingredients.find? (fun i => i.id = a.ingredient_id) with
    | none => rw [hf] at hfa; simp at hfa
    | some i =>
      rw [hf] at hfa
      simp only [Option.map_some'] at hfa
      obtain rfl := Option.some_injective _ hfa
      exact ⟨ha, hf⟩
  · rintro ⟨h1, h2⟩
    exact ⟨c.1, h1, by rw [h2]; rfl⟩

theorem mem_joinRecipes {s : Store} {l : List PgRecipeIngredient} {r : PgRecipe} :
    r ∈ joinRecipes s l ↔
      ∃ a ∈ l, s.recipes.find? (fun x => x.id = a.recipe_id) = some r := by
  unfold joinRecipes
  rw [List.mem_filterMap]

theorem lastIdxOf_some {ps : List PgRecipe} {rid i : Nat}
    (h : lastIdxOf ps rid = some i) : ∃ hlt : i < ps.length, ps[i].id = rid := by
  induction ps generalizing i with
  | nil => simp [lastIdxOf] at h
  | cons p rest ih =>
    unfold lastIdxOf at h
    cases hr : lastIdxOf rest rid with
    | some j =>
      rw [hr] at h
      simp only [Option.some_inj] at h
      subst h
      obtain ⟨hlt, hid⟩ := ih hr
      exact ⟨Nat.succ_lt_succ hlt, by simpa using hid⟩
    | none =>
      rw [hr] at h
      by_cases hp : p.id = rid
      · simp only [hp, if_pos] at h
        obtain rfl := (Option.some_inj.mp h).symm
        exact ⟨Nat.succ_pos _, hp⟩
      · simp [hp] at h

theorem lastIdxOf_ne_none {ps : List PgRecipe} {p : PgRecipe} (hp : p ∈ ps) :
    lastIdxOf ps p.id ≠ none := by
  induction ps with
  | nil => simp at hp
  | cons q rest ih =>
    unfold lastIdxOf
    cases hr : lastIdxOf rest p.id with
    | some j => simp
    | none =>
      rcases List.mem_cons.mp hp with rfl | hmem
      · simp
      · exact absurd hr (ih hmem)

theorem lastIdxOf_self_of_nodup {ps : List PgRecipe}
    (h : (ps.map (fun r => r.id)).Nodup) (i : Nat) (hlt : i < ps.length) :
    lastIdxOf ps ps[i].id = some i := by
  induction ps generalizing i with
  | nil => simp at hlt
  | cons p rest ih =>
    rw [List.map_cons, List.nodup_cons] at h
    obtain ⟨hninr, hnd⟩ := h
    cases i with
    | zero =>
      have hnone : lastIdxOf rest p.id = none := by
        cases hr : lastIdxOf rest p.id with
        | none => rfl
        | some j =>
          obtain ⟨hj, hjid⟩ := lastIdxOf_some hr
          exact absurd (List.mem_map.mpr ⟨rest[j], List.getElem_mem hj, hjid⟩) hninr
      unfold lastIdxOf
      simp [hnone]
    | succ k =>
      have hk : k < rest.length := Nat.succ_lt_succ_iff.mp (by simpa using hlt)
      have hrec := ih hnd k hk
      unfold lastIdxOf
      simp only [List.getElem_cons_succ]
      rw [hrec]

theorem groupedBy_length (ch : List (PgRecipeIngredient × PgIngredient))
    (ps : List PgRecipe) : (groupedBy ch ps).length = ps.length := by
  simp [groupedBy]

theorem groupedBy_getElem (ch : List (PgRecipeIngredient × PgIngredient))
    (ps : List PgRecipe) (i : Nat) (h : i < ps.length)
    (h2 : i < (groupedBy ch ps).length) :
    (groupedBy ch ps)[i] =
      ch.filter (fun c => lastIdxOf ps c.1.recipe_id = some i) := by
  simp [groupedBy]

theorem groupedBy_getElem_of_last (ch : List (PgRecipeIngredient × PgIngredient))
    (ps : List PgRecipe) (i : Nat) (h : i < ps.length)
    (h2 : i < (groupedBy ch ps).length)
    (hlast : lastIdxOf ps ps[i].id = some i) :
    (groupedBy ch ps)[i] =
      ch.filter (fun c => c.1.recipe_id = ps[i].id) := by
  rw [groupedBy_getElem ch ps i h h2]
  apply List.filter_congr
  intro c _
  rw [decide_eq_decide]
  constructor
  · intro hsome
    obtain ⟨hlt, hid⟩ := lastIdxOf_some hsome
    exact hid.symm
  · intro heq
    rw [heq]
    exact hlast

theorem groupedBy_getElem_of_notlast (ch : List (PgRecipeIngredient × PgIngredient))
    (ps : List PgRecipe) (i j : Nat) (h : i < ps.length)
    (h2 : i < (groupedBy ch ps).length)
    (hlast : lastIdxOf ps ps[i].id = some j) (hne : j ≠ i) :
    (groupedBy ch ps)[i] = [] := by
  rw [groupedBy_getElem ch ps i h h2, List.filter_eq_nil_iff]
  intro c _
  simp only [decide_eq_true_eq]
  intro hsome
  obtain ⟨hlt, hid⟩ := lastIdxOf_some hsome
  rw [← hid] at hsome
  rw [hsome] at hlast
  exact hne (Option.some_inj.mp hlast).symm

theorem childPairs_filter (s : Store) (ps : List PgRecipe) {r : PgRecipe} (hr : r ∈ ps) :
    (childPairs s ps).filter (fun c => c.1.recipe_id = r.id) = recipePairs s r.id := by
  unfold childPairs recipePairs
  rw [joinIngredients_filter s _ (fun a => a.recipe_id = r.id)]
  congr 1
  rw [List.filter_filter]
  apply List.filter_congr
  intro a _
  by_cases hid : a.recipe_id = r.id
  · have hany : (ps.any fun r1 => decide (r1.id = r.id)) = true := by
      rw [List.any_eq_true]
      exact ⟨r, hr, by simp⟩
    simp [hid, hany]
  · simp [hid]

/-! Claim theorems. -/

/-- C9: `parse_session_cookie` splits the raw cookie on the two-character
delimiter "##"; with at least two segments the result is (some first,
some second), otherwise (none, none); in particular "alice##tok123" yields
(some "alice", some "tok123") and "malformed" yields (none, none). -/
theorem c9_parse_session_cookie :
    (∀ c u t rest, splitSegments c = u :: t :: rest →
      parse_session_cookie c = (some u, some t)) ∧
    (∀ c, (splitSegments c).length < 2 → parse_session_cookie c = (none, none)) ∧
    parse_session_cookie "alice##tok123" = (some "alice", some "tok123") ∧
    parse_session_cookie "malformed" = (none, none) := by
  refine ⟨?_, ?_, by decide, by decide⟩
  · intro c u t rest h
    simp [parse_session_cookie, h]
  · intro c h
    unfold parse_session_cookie
    cases hsp : splitSegments c with
    | nil => rfl
    | cons x xs =>
      cases xs with
      | nil => rfl
      | cons y ys =>
        rw [hsp] at h
        simp at h
        omega

/-- C9 witness: the two branches of the contract at fresh concrete inputs. -/
theorem c9_parse_session_cookie_witness :
    parse_session_cookie "bob##t9" = (some "bob", some "t9") ∧
    parse_session_cookie "nodelim" = (none, none) :=
  ⟨c9_parse_session_cookie.1 "bob##t9" "bob" "t9" [] (by decide),
   c9_parse_session_cookie.2.1 "nodelim" (by decide)⟩

/-- C10: for the empty names list, `get_recipes_by_ingredient_names` succeeds
(the count check compares zero with zero) and returns the empty recipe list,
for every store. -/
theorem c10_empty_names (s : Store) :
    get_recipes_by_ingredient_names s [] = .ok [] := by
  have hres : resolveIngredients s [] = [] := by
    simp [resolveIngredients]
  unfold get_recipes_by_ingredient_names
  rw [hres]
  simp [byNamesKept, candidateRecipes, joinRecipes, childPairs, joinIngredients, groupedBy]

/-- C7: a lookup of a name with no matching recipe row fails with the
NotFound message carrying that name, and `get_recipe_by_name` never returns
a successful `none` despite its optional-valued result type. -/
theorem c7_recipe_not_found (s : Store) (recipe_name : String) :
    ((∀ r ∈ s.recipes, r.name ≠ recipe_name) →
      get_recipe_by_name s recipe_name = .error (noRecipeMsg recipe_name)) ∧
    get_recipe_by_name s recipe_name ≠ .ok none := by
  constructor
  · intro habs
    have hnone : s.recipes.find? (fun r => r.name = recipe_name) = none := by
      rw [List.find?_eq_none]
      intro r hr
      simpa using habs r hr
    unfold get_recipe_by_name
    rw [hnone]
  · unfold get_recipe_by_name
    cases hf : s.recipes.find? (fun r => r.name = recipe_name) <;> simp

/-- C7 witness: looking up the absent name "Cake" in a concrete store. -/
theorem c7_recipe_not_found_witness :
    get_recipe_by_name storeC1 "Cake" = .error (noRecipeMsg "Cake") :=
  (c7_recipe_not_found storeC1 "Cake").1 (by decide)

/-- C1: the cardinality check of `get_recipes_by_ingredient_names` compares
the RAW request length with the resolved-row count, so the duplicated request
["Flour", "Flour"] fails with the not-all-found error even though every
requested name exists as an ingredient — the code double-counts duplicates,
contradicting the claim. -/
theorem c1_duplicate_names_fail :
    (∀ n ∈ ["Flour", "Flour"], ∃ i ∈ storeC1.ingredients, i.name = n) ∧
    get_recipes_by_ingredient_names storeC1 ["Flour", "Flour"] =
      .error (notAllFoundMsg ["Flour", "Flour"] [⟨1, "Flour"⟩]) := by
  constructor
  · decide
  · rfl

/-- C3: if `insert_recipe` returns an error, the observable store equals the
initial store — the transaction commits nothing. -/
theorem c3_transaction_rollback (s : Store) (recipe : GqlNewRecipe) (e : String)
    (h : (insert_recipe s recipe).1 = .error e) :
    (insert_recipe s recipe).2 = s := by
  simp only [insert_recipe, transaction] at h ⊢
  cases hs : insert_recipe_steps s recipe with
  | ok p =>
    obtain ⟨a, s1⟩ := p
    rw [hs] at h
    simp at h
  | error e1 => rfl

/-- C3 witness: inserting a recipe whose ingredient list repeats a name makes
the bulk ingredient upsert fail after the recipe row was written; the
operation reports the error and the store is unchanged. -/
theorem c3_transaction_rollback_witness :
    (insert_recipe storeC3 newRecipeC3).1 = .error cannotAffectRowTwiceMsg ∧
    (upsert_recipe storeC3 newRecipeC3).2 ≠ storeC3 ∧
    (insert_recipe storeC3 newRecipeC3).2 = storeC3 :=
  ⟨by decide, by decide,
   c3_transaction_rollback storeC3 newRecipeC3 cannotAffectRowTwiceMsg (by decide)⟩

/-- C6: when some requested name matches no ingredient row (and the store's
unique-name constraint holds), `get_recipes_by_ingredient_names` fails with
the error carrying both the requested names and the resolved ingredient rows,
and returns no recipes. -/
theorem c6_partial_resolution (s : Store) (names : List String)
    (hwf : (s.ingredients.map (fun i => i.name)).Nodup)
    (hmiss : ∃ n ∈ names, ∀ i ∈ s.ingredients, i.name ≠ n) :
    get_recipes_by_ingredient_names s names =
      .error (notAllFoundMsg names (resolveIngredients s names)) := by
  obtain ⟨n, hn, hnores⟩ := hmiss
  have hlen : (resolveIngredients s names).length < names.length := by
    have hsub : (resolveIngredients s names).Sublist s.ingredients :=
      List.filter_sublist _
    have hndR : ((resolveIngredients s names).map (fun i => i.name)).Nodup :=
      (hsub.map _).nodup hwf
    have hss : ((resolveIngredients s names).map (fun i => i.name)) ⊆
        names.filter (fun m => m ≠ n) := by
      intro x hx
      rw [List.mem_map] at hx
      obtain ⟨i, hiR, rfl⟩ := hx
      rw [resolveIngredients, List.mem_filter] at hiR
      obtain ⟨his, hany⟩ := hiR
      rw [List.mem_filter]
      rw [List.any_eq_true] at hany
      obtain ⟨m, hm, he⟩ := hany
      rw [decide_eq_true_eq] at he
      subst he
      exact ⟨hm, by simpa using hnores i his⟩
    have h1 := (List.subperm_of_subset hndR hss).length_le
    have h2 : (names.filter (fun m => m ≠ n)).length < names.length := by
      rw [List.length_filter_lt_length_iff_exists]
      exact ⟨n, hn, by simp⟩
    have h3 := lt_of_le_of_lt h1 h2
    simpa using h3
  simp only [get_recipes_by_ingredient_names]
  rw [if_pos (by omega)]

/-- C6 witness: requesting ["Flour", "Sugar"] against a store that only has
Flour fails with the wanted-vs-found error. -/
theorem c6_partial_resolution_witness :
    get_recipes_by_ingredient_names storeC1 ["Flour", "Sugar"] =
      .error (notAllFoundMsg ["Flour", "Sugar"] (resolveIngredients storeC1 ["Flour", "Sugar"])) :=
  c6_partial_resolution storeC1 ["Flour", "Sugar"] (by decide)
    ⟨"Sugar", by decide, by decide⟩

/-! Characterisation of the by-names query result. -/

theorem joinRecipes_subset {s : Store} {l : List PgRecipeIngredient} :
    joinRecipes s l ⊆ s.recipes := by
  intro r hr
  rw [mem_joinRecipes] at hr
  obtain ⟨a, _, hf⟩ := hr
  exact List.mem_of_find?_eq_some hf

theorem all_any_mem (R : List PgIngredient) (l : List (PgRecipeIngredient × PgIngredient)) :
    (R.all (fun ing => (l.map Prod.snd).any (fun f => f = ing)) = true) ↔
      ∀ ing ∈ R, ing ∈ l.map Prod.snd := by
  simp [List.all_eq_true, List.any_eq_true]

theorem mem_resolveIngredients {s : Store} {names : List String} {i : PgIngredient} :
    i ∈ resolveIngredients s names ↔ i ∈ s.ingredients ∧ i.name ∈ names := by
  simp [resolveIngredients, List.mem_filter, List.any_eq_true]

theorem resolve_length_eq (s : Store) (names : List String)
    (hwf : (s.ingredients.map (fun i => i.name)).Nodup)
    (hnd : names.Nodup)
    (hall : ∀ n ∈ names, ∃ i ∈ s.ingredients, i.name = n) :
    (resolveIngredients s names).length = names.length := by
  have hsub : (resolveIngredients s names).Sublist s.ingredients :=
    List.filter_sublist _
  have hndR : ((resolveIngredients s names).map (fun i => i.name)).Nodup :=
    (hsub.map _).nodup hwf
  have hss1 : ((resolveIngredients s names).map (fun i => i.name)) ⊆ names := by
    intro x hx
    rw [List.mem_map] at hx
    obtain ⟨i, hiR, rfl⟩ := hx
    exact (mem_resolveIngredients.mp hiR).2
  have hss2 : names ⊆ ((resolveIngredients s names).map (fun i => i.name)) := by
    intro n hn
    obtain ⟨i, his, hin⟩ := hall n hn
    rw [List.mem_map]
    exact ⟨i, mem_resolveIngredients.mpr ⟨his, hin ▸ hn⟩, hin⟩
  have h1 := (List.subperm_of_subset hndR hss1).length_le
  have h2 := (List.subperm_of_subset hnd hss2).length_le
  rw [List.length_map] at h1 h2
  omega

theorem byNames_mem (s : Store) (R : List PgIngredient) (g : GqlRecipe)
    (hRne : R ≠ [])
    (hidRec : (s.recipes.map (fun r => r.id)).Nodup) :
    g ∈ (byNamesKept s R).map (fun p => GqlRecipe.from_pg p.2 p.1) ↔
      ∃ r ∈ s.recipes, (∀ ing ∈ R, ing ∈ (recipePairs s r.id).map Prod.snd) ∧
        g = GqlRecipe.from_pg r (recipePairs s r.id) := by
  unfold byNamesKept
  constructor
  · intro hg
    rw [List.mem_map] at hg
    obtain ⟨p, hp, hgp⟩ := hg
    rw [List.mem_filter] at hp
    obtain ⟨hzip, hpred⟩ := hp
    rw [List.mem_iff_getElem] at hzip
    obtain ⟨k, hk, hkp⟩ := hzip
    have hkc : k < (candidateRecipes s R).length := by
      rw [List.length_zip, groupedBy_length, Nat.min_self] at hk
      exact hk
    have hmemk : (candidateRecipes s R)[k] ∈ candidateRecipes s R :=
      List.getElem_mem hkc
    rw [List.getElem_zip] at hkp
    subst hkp
    simp only [] at hpred hgp
    have hkg : k < (groupedBy (childPairs s (candidateRecipes s R))
        (candidateRecipes s R)).length := by
      rw [groupedBy_length]
      exact hkc
    cases hli : lastIdxOf (candidateRecipes s R) ((candidateRecipes s R)[k]).id with
    | none => exact absurd hli (lastIdxOf_ne_none hmemk)
    | some j =>
      rcases eq_or_ne j k with rfl | hjk
      · have hgrp := groupedBy_getElem_of_last
          (childPairs s (candidateRecipes s R)) (candidateRecipes s R) j hkc hkg hli
        rw [childPairs_filter s (candidateRecipes s R) hmemk] at hgrp
        rw [hgrp] at hpred hgp
        rw [all_any_mem] at hpred
        exact ⟨(candidateRecipes s R)[j], joinRecipes_subset hmemk, hpred, hgp.symm⟩
      · have hgrp0 := groupedBy_getElem_of_notlast
          (childPairs s (candidateRecipes s R)) (candidateRecipes s R) k j hkc hkg hli hjk
        rw [hgrp0] at hpred
        rw [all_any_mem] at hpred
        obtain ⟨ing0, hing0⟩ := List.exists_mem_of_ne_nil R hRne
        have hmem0 := hpred ing0 hing0
        simp at hmem0
  · rintro ⟨r, hrs, hsup, rfl⟩
    obtain ⟨ing0, hing0⟩ := List.exists_mem_of_ne_nil R hRne
    have hing0p := hsup ing0 hing0
    rw [List.mem_map] at hing0p
    obtain ⟨c, hc, hcsnd⟩ := hing0p
    rw [recipePairs, mem_joinIngredients] at hc
    obtain ⟨hc1, hcf⟩ := hc
    rw [List.mem_filter] at hc1
    obtain ⟨hcm, hcrid⟩ := hc1
    rw [decide_eq_true_eq] at hcrid
    have hcid : c.2.id = c.1.ingredient_id := by
      simpa using List.find?_some hcf
    have hpredc : R.any (fun i => i.id = c.1.ingredient_id) = true := by
      rw [List.any_eq_true]
      refine ⟨ing0, hing0, ?_⟩
      rw [← hcsnd, decide_eq_true_eq]
      exact hcid
    have hfr : s.recipes.find? (fun x => x.id = c.1.recipe_id) = some r :=
      find?_key_unique (fun x => x.id) hidRec hrs hcrid.symm
    have hrcds : r ∈ candidateRecipes s R := by
      rw [candidateRecipes, mem_joinRecipes]
      exact ⟨c.1, List.mem_filter.mpr ⟨hcm, hpredc⟩, hfr⟩
    cases hli : lastIdxOf (candidateRecipes s R) r.id with
    | none => exact absurd hli (lastIdxOf_ne_none hrcds)
    | some k =>
      obtain ⟨hkc, hkid⟩ := lastIdxOf_some hli
      have hceq : (candidateRecipes s R)[k] = r :=
        List.inj_on_of_nodup_map hidRec
          (joinRecipes_subset (List.getElem_mem hkc)) hrs hkid
      have hkg2 : k < (groupedBy (childPairs s (candidateRecipes s R))
          (candidateRecipes s R)).length := by
        rw [groupedBy_length]
        exact hkc
      have hli2 : lastIdxOf (candidateRecipes s R) ((candidateRecipes s R)[k]).id
          = some k := by
        rw [hkid]
        exact hli
      have hgrp := groupedBy_getElem_of_last
        (childPairs s (candidateRecipes s R)) (candidateRecipes s R) k hkc hkg2 hli2
      rw [childPairs_filter s (candidateRecipes s R) (List.getElem_mem hkc)] at hgrp
      have hkz : k < (((groupedBy (childPairs s (candidateRecipes s R))
          (candidateRecipes s R)).zip (candidateRecipes s R)).length) := by
        rw [List.length_zip, groupedBy_length, Nat.min_self]
        exact hkc
      rw [List.mem_map]
      refine ⟨((groupedBy (childPairs s (candidateRecipes s R))
          (candidateRecipes s R))[k],
          (candidateRecipes s R)[k]), ?_, ?_⟩
      · rw [List.mem_filter]
        constructor
        · rw [List.mem_iff_getElem]
          exact ⟨k, hkz, List.getElem_zip⟩
        · simp only []
          rw [all_any_mem, hgrp, hkid]
          exact hsup
      · simp only []
        rw [hgrp, hkid, hceq]

/-- C2 counterexample: over `storeC2` the claim fails as stated.  The empty
names list has all its (zero) names resolved and every recipe's ingredient set
is a superset of the (empty) resolved set, yet the query returns no recipes;
so the claimed characterisation of the result set is false at names = []. -/
theorem c2_counterexample :
    ¬ (∀ names : List String,
        (∀ n ∈ names, ∃ i ∈ storeC2.ingredients, i.name = n) →
        ∃ rs, get_recipes_by_ingredient_names storeC2 names = .ok rs ∧
          ∀ g, g ∈ rs ↔ ∃ r ∈ storeC2.recipes,
            (∀ ing ∈ resolveIngredients storeC2 names,
              ing ∈ (recipePairs storeC2 r.id).map Prod.snd) ∧
            g = GqlRecipe.from_pg r (recipePairs storeC2 r.id)) := by
  intro hclaim
  obtain ⟨rs, hok, hiff⟩ := hclaim [] (by decide)
  have hempty : get_recipes_by_ingredient_names storeC2 [] = .ok [] := by decide
  rw [hempty] at hok
  obtain rfl : ([] : List GqlRecipe) = rs := Except.ok.inj hok
  have hmem := (hiff (GqlRecipe.from_pg ⟨1, "Pancakes"⟩ (recipePairs storeC2 1))).mpr
    ⟨⟨1, "Pancakes"⟩, by decide, by decide, rfl⟩
  simp at hmem

/-- C2 (amended): for every NONEMPTY and DUPLICATE-FREE names list whose names
all resolve to existing ingredients (in a store satisfying the schema
constraints), the query succeeds and returns exactly the recipes whose full
joined ingredient list contains every resolved ingredient (supersets match,
recipes missing a requested ingredient are dropped), each carried with its
complete ingredient pair list. -/
theorem c2_superset_matching (s : Store) (names : List String)
    (hwf : WF s) (hne : names ≠ []) (hnd : names.Nodup)
    (hall : ∀ n ∈ names, ∃ i ∈ s.ingredients, i.name = n) :
    ∃ rs, get_recipes_by_ingredient_names s names = .ok rs ∧
      ∀ g, g ∈ rs ↔ ∃ r ∈ s.recipes,
        (∀ ing ∈ resolveIngredients s names,
          ing ∈ (recipePairs s r.id).map Prod.snd) ∧
        g = GqlRecipe.from_pg r (recipePairs s r.id) := by
  obtain ⟨hidRec, hnameRec, hidIng, hnameIng, hkeys, href⟩ := hwf
  have hlen := resolve_length_eq s names hnameIng hnd hall
  have hRne : resolveIngredients s names ≠ [] := by
    obtain ⟨n, hn⟩ := List.exists_mem_of_ne_nil names hne
    obtain ⟨i, his, hin⟩ := hall n hn
    intro hnil
    have hi : i ∈ resolveIngredients s names :=
      mem_resolveIngredients.mpr ⟨his, hin ▸ hn⟩
    rw [hnil] at hi
    simp at hi
  refine ⟨(byNamesKept s (resolveIngredients s names)).map
      (fun p => GqlRecipe.from_pg p.2 p.1), ?_, ?_⟩
  · simp only [get_recipes_by_ingredient_names]
    rw [if_neg (fun hcon => hcon hlen.symm)]
  · intro g
    exact byNames_mem s (resolveIngredients s names) g hRne hidRec

/-- C2 witness: requesting ["Flour", "Egg"] against `storeC2` yields exactly
the recipes containing both (Pancakes, which also has Milk, matches;
Omelette, which lacks Flour, does not). -/
theorem c2_superset_matching_witness :
    ∃ rs, get_recipes_by_ingredient_names storeC2 ["Flour", "Egg"] = .ok rs ∧
      ∀ g, g ∈ rs ↔ ∃ r ∈ storeC2.recipes,
        (∀ ing ∈ resolveIngredients storeC2 ["Flour", "Egg"],
          ing ∈ (recipePairs storeC2 r.id).map Prod.snd) ∧
        g = GqlRecipe.from_pg r (recipePairs storeC2 r.id) :=
  c2_superset_matching storeC2 ["Flour", "Egg"] (by decide) (by decide)
    (by decide) (by decide)

/-! Lemmas for the single-ingredient query. -/

theorem joinRecipes_ids_nodup {s : Store} {l : List PgRecipeIngredient}
    (hnd : (l.map (fun a => a.recipe_id)).Nodup) :
    ((joinRecipes s l).map (fun r => r.id)).Nodup := by
  induction l with
  | nil => simp [joinRecipes]
  | cons a t ih =>
    rw [List.map_cons, List.nodup_cons] at hnd
    obtain ⟨hhead, htail⟩ := hnd
    unfold joinRecipes at ih ⊢
    rw [List.filterMap_cons]
    cases hf : s.recipes.find? (fun r => r.id = a.recipe_id) with
    | none => exact ih htail
    | some r =>
      rw [List.map_cons, List.nodup_cons]
      refine ⟨?_, ih htail⟩
      intro hmem
      rw [List.mem_map] at hmem
      obtain ⟨r1, hr1, hid1⟩ := hmem
      rw [List.mem_filterMap] at hr1
      obtain ⟨a1, ha1, hf1⟩ := hr1
      have hrid : r.id = a.recipe_id := by simpa using List.find?_some hf
      have hrid1 : r1.id = a1.recipe_id := by simpa using List.find?_some hf1
      apply hhead
      rw [List.mem_map]
      exact ⟨a1, ha1, by rw [← hrid1, hid1, hrid]⟩

theorem filter_assoc_rid_nodup {s : Store}
    (hkeys : (s.recipe_ingredients.map assocKey).Nodup) (iid : Nat) :
    ((s.recipe_ingredients.filter (fun a => a.ingredient_id = iid)).map
      (fun a => a.recipe_id)).Nodup := by
  have hsub : (s.recipe_ingredients.filter (fun a => a.ingredient_id = iid)).Sublist
      s.recipe_ingredients := List.filter_sublist _
  have hknd : ((s.recipe_ingredients.filter (fun a => a.ingredient_id = iid)).map
      assocKey).Nodup := (hsub.map _).nodup hkeys
  have heq : ((s.recipe_ingredients.filter (fun a => a.ingredient_id = iid)).map
      (fun a => a.recipe_id)) =
      ((s.recipe_ingredients.filter (fun a => a.ingredient_id = iid)).map
        assocKey).map Prod.fst := by
    rw [List.map_map]
    rfl
  rw [heq]
  apply List.Nodup.map_on ?_ hknd
  intro x hx y hy hfst
  rw [List.mem_map] at hx hy
  obtain ⟨ax, hax, rfl⟩ := hx
  obtain ⟨ay, hay, rfl⟩ := hy
  rw [List.mem_filter, decide_eq_true_eq] at hax hay
  have hx2 : (assocKey ax).2 = iid := hax.2
  have hy2 : (assocKey ay).2 = iid := hay.2
  exact Prod.ext hfst (hx2.trans hy2.symm)

/-- C8: for every existing ingredient name (in a store satisfying the schema
constraints), every recipe returned by `get_recipes_by_ingredient_name` is the
API image of a stored recipe together with its COMPLETE joined ingredient
pair list, not only the matching ingredient. -/
theorem c8_full_ingredient_list (s : Store) (ingredient_name : String)
    (hwf : WF s)
    (hexists : ∃ i ∈ s.ingredients, i.name = ingredient_name) :
    ∃ rs, get_recipes_by_ingredient_name s ingredient_name = .ok rs ∧
      ∀ g ∈ rs, ∃ r ∈ s.recipes, g = GqlRecipe.from_pg r (recipePairs s r.id) := by
  obtain ⟨hidRec, hnameRec, hidIng, hnameIng, hkeys, href⟩ := hwf
  have hsome : (s.ingredients.find? (fun i => i.name = ingredient_name)).isSome := by
    rw [List.find?_isSome]
    obtain ⟨i, his, hin⟩ := hexists
    exact ⟨i, his, by simp [hin]⟩
  obtain ⟨ing, hing⟩ := Option.isSome_iff_exists.mp hsome
  refine ⟨(((joinRecipes s (s.recipe_ingredients.filter
      (fun a => a.ingredient_id = ing.id))).zip
      (groupedBy (childPairs s (joinRecipes s (s.recipe_ingredients.filter
        (fun a => a.ingredient_id = ing.id))))
        (joinRecipes s (s.recipe_ingredients.filter
          (fun a => a.ingredient_id = ing.id))))).map
      (fun p => GqlRecipe.from_pg p.1 p.2)), ?_, ?_⟩
  · simp only [get_recipes_by_ingredient_name]
    rw [hing]
  · intro g hg
    rw [List.mem_map] at hg
    obtain ⟨p, hp, hgp⟩ := hg
    rw [List.mem_iff_getElem] at hp
    obtain ⟨k, hk, hkp⟩ := hp
    have hkc : k < (joinRecipes s (s.recipe_ingredients.filter
        (fun a => a.ingredient_id = ing.id))).length := by
      rw [List.length_zip, groupedBy_length, Nat.min_self] at hk
      exact hk
    rw [List.getElem_zip] at hkp
    subst hkp
    simp only [] at hgp
    have hnodup : ((joinRecipes s (s.recipe_ingredients.filter
        (fun a => a.ingredient_id = ing.id))).map (fun r => r.id)).Nodup :=
      joinRecipes_ids_nodup (filter_assoc_rid_nodup hkeys ing.id)
    have hlast := lastIdxOf_self_of_nodup hnodup k hkc
    have hkg3 : k < (groupedBy (childPairs s (joinRecipes s
        (s.recipe_ingredients.filter (fun a => a.ingredient_id = ing.id))))
        (joinRecipes s (s.recipe_ingredients.filter
          (fun a => a.ingredient_id = ing.id)))).length := by
      rw [groupedBy_length]
      exact hkc
    have hgrp := groupedBy_getElem_of_last
      (childPairs s (joinRecipes s (s.recipe_ingredients.filter
        (fun a => a.ingredient_id = ing.id))))
      (joinRecipes s (s.recipe_ingredients.filter
        (fun a => a.ingredient_id = ing.id))) k hkc hkg3 hlast
    rw [childPairs_filter s _ (List.getElem_mem hkc)] at hgrp
    refine ⟨(joinRecipes s (s.recipe_ingredients.filter
        (fun a => a.ingredient_id = ing.id)))[k],
      joinRecipes_subset (List.getElem_mem hkc), ?_⟩
    rw [← hgp, hgrp]

/-- C8 witness: querying "Egg" against `storeC2` — both returned recipes are
carried with their complete pair lists. -/
theorem c8_full_ingredient_list_witness :
    ∃ rs, get_recipes_by_ingredient_name storeC2 "Egg" = .ok rs ∧
      ∀ g ∈ rs, ∃ r ∈ storeC2.recipes,
        g = GqlRecipe.from_pg r (recipePairs storeC2 r.id) :=
  c8_full_ingredient_list storeC2 "Egg" (by decide) ⟨⟨2, "Egg"⟩, by decide, by decide⟩

/-! Lemmas about the upsert steps of `insert_recipe`. -/

theorem mem_le_foldr_max {l : List Nat} {x : Nat} (hx : x ∈ l) : x ≤ l.foldr max 0 := by
  induction l with
  | nil => simp at hx
  | cons a t ih =>
    rw [List.foldr_cons]
    rcases List.mem_cons.mp hx with rfl | hm
    · exact le_max_left _ _
    · exact le_trans (ih hm) (le_max_right _ _)

theorem nextRecipeId_gt {s : Store} {r : PgRecipe} (hr : r ∈ s.recipes) :
    r.id < nextRecipeId s := by
  unfold nextRecipeId
  have h : r.id ≤ (s.recipes.map (fun x => x.id)).foldr max 0 :=
    mem_le_foldr_max (List.mem_map_of_mem (fun x => x.id) hr)
  omega

theorem nextIngredientId_gt {s : Store} {i : PgIngredient} (hi : i ∈ s.ingredients) :
    i.id < nextIngredientId s := by
  unfold nextIngredientId
  have h : i.id ≤ (s.ingredients.map (fun x => x.id)).foldr max 0 :=
    mem_le_foldr_max (List.mem_map_of_mem (fun x => x.id) hi)
  omega

theorem nodup_concat_of {α : Type} {l : List α} {x : α} (hl : l.Nodup) (hx : x ∉ l) :
    (l ++ [x]).Nodup := by
  rw [List.nodup_append]
  refine ⟨hl, List.nodup_singleton x, ?_⟩
  intro a ha hax
  exact hx (by rwa [List.mem_singleton.mp hax] at ha)

theorem upsert_recipe_fresh {s : Store} {nr : GqlNewRecipe}
    (h : ∀ r ∈ s.recipes, r.name ≠ nr.name) :
    upsert_recipe s nr =
      (⟨nextRecipeId s, nr.name⟩,
        { s with recipes := s.recipes ++ [⟨nextRecipeId s, nr.name⟩] }) := by
  unfold upsert_recipe
  rw [List.find?_eq_none.mpr (fun r hr => by simpa using h r hr)]

theorem upsert_recipe_found {s : Store} {nr : GqlNewRecipe} {r : PgRecipe}
    (h : s.recipes.find? (fun x => x.name = nr.name) = some r) :
    upsert_recipe s nr = (r, s) := by
  unfold upsert_recipe
  rw [h]

theorem upsert_ingredients_go_spec (ins : List GqlIngredient) (s : Store)
    (hid : (s.ingredients.map (fun i => i.id)).Nodup)
    (hname : (s.ingredients.map (fun i => i.name)).Nodup) :
    (upsert_ingredients_go s ins).2.recipes = s.recipes ∧
    (upsert_ingredients_go s ins).2.recipe_ingredients = s.recipe_ingredients ∧
    (∃ ext, (upsert_ingredients_go s ins).2.ingredients = s.ingredients ++ ext) ∧
    ((upsert_ingredients_go s ins).2.ingredients.map (fun i => i.id)).Nodup ∧
    ((upsert_ingredients_go s ins).2.ingredients.map (fun i => i.name)).Nodup ∧
    List.Forall₂ (fun row ni => row.name = ni.name ∧
        row ∈ (upsert_ingredients_go s ins).2.ingredients)
      (upsert_ingredients_go s ins).1 ins := by
  induction ins generalizing s with
  | nil =>
    refine ⟨rfl, rfl, ⟨[], by simp [upsert_ingredients_go]⟩, hid, hname, ?_⟩
    exact List.Forall₂.nil
  | cons ni rest ih =>
    cases hf : s.ingredients.find? (fun i => i.name = ni.name) with
    | some row =>
      have hgo : upsert_ingredients_go s (ni :: rest) =
          (row :: (upsert_ingredients_go s rest).1, (upsert_ingredients_go s rest).2) := by
        conv_lhs => unfold upsert_ingredients_go
        rw [hf]
      obtain ⟨h1, h2, ⟨ext, h3⟩, h4, h5, h6⟩ := ih s hid hname
      rw [hgo]
      refine ⟨h1, h2, ⟨ext, h3⟩, h4, h5, ?_⟩
      refine List.Forall₂.cons ⟨by simpa using List.find?_some hf, ?_⟩ h6
      rw [h3]
      exact List.mem_append_left _ (List.mem_of_find?_eq_some hf)
    | none =>
      have hgo : upsert_ingredients_go s (ni :: rest) =
          ((⟨nextIngredientId s, ni.name⟩ : PgIngredient) ::
              (upsert_ingredients_go
                { s with ingredients :=
                    s.ingredients ++ [⟨nextIngredientId s, ni.name⟩] } rest).1,
            (upsert_ingredients_go
                { s with ingredients :=
                    s.ingredients ++ [⟨nextIngredientId s, ni.name⟩] } rest).2) := by
        conv_lhs => unfold upsert_ingredients_go
        rw [hf]
      have hnotid : (nextIngredientId s) ∉ s.ingredients.map (fun i => i.id) := by
        intro hmem
        rw [List.mem_map] at hmem
        obtain ⟨i, his, hieq⟩ := hmem
        have := nextIngredientId_gt his
        omega
      have hnotname : ni.name ∉ s.ingredients.map (fun i => i.name) := by
        intro hmem
        rw [List.mem_map] at hmem
        obtain ⟨i, his, hieq⟩ := hmem
        rw [List.find?_eq_none] at hf
        exact absurd (by simp [hieq]) (hf i his)
      have hid1 : (({ s with ingredients :=
          s.ingredients ++ [⟨nextIngredientId s, ni.name⟩] } : Store).ingredients.map
            (fun i => i.id)).Nodup := by
        dsimp only []
        rw [List.map_append]
        exact nodup_concat_of hid hnotid
      have hname1 : (({ s with ingredients :=
          s.ingredients ++ [⟨nextIngredientId s, ni.name⟩] } : Store).ingredients.map
            (fun i => i.name)).Nodup := by
        dsimp only []
        rw [List.map_append]
        exact nodup_concat_of hname hnotname
      obtain ⟨h1, h2, ⟨ext, h3⟩, h4, h5, h6⟩ := ih _ hid1 hname1
      rw [hgo]
      refine ⟨h1, h2, ?_, h4, h5, ?_⟩
      · refine ⟨[⟨nextIngredientId s, ni.name⟩] ++ ext, ?_⟩
        rw [h3]
        dsimp only []
        rw [List.append_assoc]
      · refine List.Forall₂.cons ⟨rfl, ?_⟩ h6
        rw [h3]
        dsimp only []
        exact List.mem_append_left _ (List.mem_append_right _ (by simp))

theorem upsert_assocs_go_cons_pos {s : Store} {na : PgRecipeIngredient}
    {rest : List PgRecipeIngredient}
    (hc : s.recipe_ingredients.any (fun a => assocKey a = assocKey na) = true) :
    upsert_assocs_go s (na :: rest) =
      (na :: (upsert_assocs_go
          { s with recipe_ingredients := (s.recipe_ingredients.map
              (fun a => if assocKey a = assocKey na then na else a)) } rest).1,
        (upsert_assocs_go
          { s with recipe_ingredients := (s.recipe_ingredients.map
              (fun a => if assocKey a = assocKey na then na else a)) } rest).2) := by
  conv_lhs => unfold upsert_assocs_go
  rw [if_pos hc]

theorem upsert_assocs_go_cons_neg {s : Store} {na : PgRecipeIngredient}
    {rest : List PgRecipeIngredient}
    (hc : ¬ s.recipe_ingredients.any (fun a => assocKey a = assocKey na) = true) :
    upsert_assocs_go s (na :: rest) =
      (na :: (upsert_assocs_go
          { s with recipe_ingredients := s.recipe_ingredients ++ [na] } rest).1,
        (upsert_assocs_go
          { s with recipe_ingredients := s.recipe_ingredients ++ [na] } rest).2) := by
  conv_lhs => unfold upsert_assocs_go
  rw [if_neg hc]

theorem upsert_assocs_go_preserves (nas : List PgRecipeIngredient) (s : Store) :
    (upsert_assocs_go s nas).2.recipes = s.recipes ∧
    (upsert_assocs_go s nas).2.ingredients = s.ingredients := by
  induction nas generalizing s with
  | nil => exact ⟨rfl, rfl⟩
  | cons na rest ih =>
    by_cases hc : s.recipe_ingredients.any (fun a => assocKey a = assocKey na) = true
    · rw [upsert_assocs_go_cons_pos hc]
      exact ih _
    · rw [upsert_assocs_go_cons_neg hc]
      exact ih _

theorem mem_upsert_assocs_go {nas : List PgRecipeIngredient} {s : Store}
    (hnd : (nas.map assocKey).Nodup) (a : PgRecipeIngredient) :
    a ∈ (upsert_assocs_go s nas).2.recipe_ingredients ↔
      ((a ∈ s.recipe_ingredients ∧ assocKey a ∉ nas.map assocKey) ∨ a ∈ nas) := by
  induction nas generalizing s with
  | nil => simp [upsert_assocs_go]
  | cons na rest ih =>
    rw [List.map_cons, List.nodup_cons] at hnd
    obtain ⟨hkna, hndr⟩ := hnd
    by_cases hc : s.recipe_ingredients.any (fun x => assocKey x = assocKey na) = true
    · rw [upsert_assocs_go_cons_pos hc]
      rw [ih hndr]
      have hmm : a ∈ (s.recipe_ingredients.map
          (fun x => if assocKey x = assocKey na then na else x)) ↔
          ((a ∈ s.recipe_ingredients ∧ assocKey a ≠ assocKey na) ∨ a = na) := by
        rw [List.mem_map]
        constructor
        · rintro ⟨b, hb, hba⟩
          by_cases hkb : assocKey b = assocKey na
          · rw [if_pos hkb] at hba
            right
            exact hba.symm
          · rw [if_neg hkb] at hba
            left
            subst hba
            exact ⟨hb, hkb⟩
        · rintro (⟨ha, hk⟩ | rfl)
          · exact ⟨a, ha, if_neg hk⟩
          · rw [List.any_eq_true] at hc
            obtain ⟨b, hb, hkb⟩ := hc
            rw [decide_eq_true_eq] at hkb
            exact ⟨b, hb, if_pos hkb⟩
      dsimp only [] at hmm ⊢
      rw [hmm, List.mem_cons, List.map_cons, List.mem_cons]
      constructor
      · rintro (⟨⟨hsm, hne⟩ | rfl, hnr⟩ | hr)
        · exact Or.inl ⟨hsm, fun hcon => hcon.elim hne hnr⟩
        · exact Or.inr (Or.inl rfl)
        · exact Or.inr (Or.inr hr)
      · rintro (⟨hsm, hnk⟩ | rfl | hr)
        · exact Or.inl ⟨Or.inl ⟨hsm, fun hcon => hnk (Or.inl hcon)⟩,
            fun hcon => hnk (Or.inr hcon)⟩
        · exact Or.inl ⟨Or.inr rfl, hkna⟩
        · exact Or.inr hr
    · rw [upsert_assocs_go_cons_neg hc]
      rw [ih hndr]
      have hnone : ∀ b ∈ s.recipe_ingredients, assocKey b ≠ assocKey na := by
        intro b hb
        have hfalse : s.recipe_ingredients.any
            (fun x => assocKey x = assocKey na) = false := by
          cases hany : s.recipe_ingredients.any (fun x => assocKey x = assocKey na) with
          | true => exact absurd hany hc
          | false => rfl
        rw [List.any_eq_false] at hfalse
        simpa using hfalse b hb
      dsimp only []
      rw [List.mem_append, List.mem_singleton, List.mem_cons, List.map_cons, List.mem_cons]
      constructor
      · rintro (⟨hsm | rfl, hnr⟩ | hr)
        · exact Or.inl ⟨hsm, fun hcon => hcon.elim (hnone a hsm) hnr⟩
        · exact Or.inr (Or.inl rfl)
        · exact Or.inr (Or.inr hr)
      · rintro (⟨hsm, hnk⟩ | rfl | hr)
        · exact Or.inl ⟨Or.inl hsm, fun hcon => hnk (Or.inr hcon)⟩
        · exact Or.inl ⟨Or.inr rfl, hkna⟩
        · exact Or.inr hr

theorem upsert_assocs_go_keys_nodup {nas : List PgRecipeIngredient} {s : Store}
    (hs : (s.recipe_ingredients.map assocKey).Nodup)
    (hnd : (nas.map assocKey).Nodup) :
    ((upsert_assocs_go s nas).2.recipe_ingredients.map assocKey).Nodup := by
  induction nas generalizing s with
  | nil => exact hs
  | cons na rest ih =>
    rw [List.map_cons, List.nodup_cons] at hnd
    obtain ⟨hkna, hndr⟩ := hnd
    by_cases hc : s.recipe_ingredients.any (fun x => assocKey x = assocKey na) = true
    · rw [upsert_assocs_go_cons_pos hc]
      refine ih ?_ hndr
      dsimp only []
      have heq : (s.recipe_ingredients.map
          (fun x => if assocKey x = assocKey na then na else x)).map assocKey =
          s.recipe_ingredients.map assocKey := by
        rw [List.map_map]
        apply List.map_congr_left
        intro x _
        by_cases hkx : assocKey x = assocKey na
        · simp [hkx]
        · simp [hkx]
      rw [heq]
      exact hs
    · rw [upsert_assocs_go_cons_neg hc]
      refine ih ?_ hndr
      dsimp only []
      rw [List.map_append]
      refine nodup_concat_of hs ?_
      intro hmem
      rw [List.mem_map] at hmem
      obtain ⟨b, hb, hkb⟩ := hmem
      have hfalse : s.recipe_ingredients.any
          (fun x => assocKey x = assocKey na) = false := by
        cases hany : s.recipe_ingredients.any (fun x => assocKey x = assocKey na) with
        | true => exact absurd hany hc
        | false => rfl
      rw [List.any_eq_false] at hfalse
      exact absurd (by simp [hkb]) (hfalse b hb)

theorem upsert_assocs_go_append {nas : List PgRecipeIngredient} {s : Store}
    (hnd : (nas.map assocKey).Nodup)
    (hdisj : ∀ na ∈ nas, ∀ a ∈ s.recipe_ingredients, assocKey a ≠ assocKey na) :
    upsert_assocs_go s nas =
      (nas, { s with recipe_ingredients := s.recipe_ingredients ++ nas }) := by
  induction nas generalizing s with
  | nil => simp [upsert_assocs_go]
  | cons na rest ih =>
    rw [List.map_cons, List.nodup_cons] at hnd
    obtain ⟨hkna, hndr⟩ := hnd
    have hc : ¬ s.recipe_ingredients.any (fun x => assocKey x = assocKey na) = true := by
      intro hc
      rw [List.any_eq_true] at hc
      obtain ⟨b, hb, hkb⟩ := hc
      rw [decide_eq_true_eq] at hkb
      exact hdisj na (List.mem_cons_self na rest) b hb hkb
    rw [upsert_assocs_go_cons_neg hc]
    have hdisj1 : ∀ na1 ∈ rest, ∀ a ∈
        ({ s with recipe_ingredients := s.recipe_ingredients ++ [na] } : Store).recipe_ingredients,
        assocKey a ≠ assocKey na1 := by
      intro na1 hna1 a ha
      dsimp only [] at ha
      rcases List.mem_append.mp ha with hsm | hone
      · exact hdisj na1 (List.mem_cons_of_mem na hna1) a hsm
      · rw [List.mem_singleton.mp hone]
        intro hcon
        exact hkna (hcon ▸ List.mem_map_of_mem assocKey hna1)
    rw [ih hndr hdisj1]
    dsimp only []
    rw [List.append_assoc, List.singleton_append]

theorem countP_key_eq_one {α β : Type} [DecidableEq β] (f : α → β) {l : List α}
    (hnd : (l.map f).Nodup) {v : β} (hex : ∃ x ∈ l, f x = v) :
    l.countP (fun x => f x = v) = 1 := by
  induction l with
  | nil => simp at hex
  | cons a t ih =>
    rw [List.map_cons, List.nodup_cons] at hnd
    obtain ⟨hna, hnd⟩ := hnd
    rw [List.countP_cons]
    by_cases hfa : f a = v
    · have h0 : t.countP (fun x => f x = v) = 0 := by
        rw [List.countP_eq_zero]
        intro b hb
        simp only [decide_eq_true_eq]
        intro hfb
        exact hna (by rw [hfa, ← hfb]; exact List.mem_map_of_mem f hb)
      simp [hfa, h0]
    · obtain ⟨x, hx, hfx⟩ := hex
      rcases List.mem_cons.mp hx with rfl | hxt
      · exact absurd hfx hfa
      · have h1 := ih hnd ⟨x, hxt, hfx⟩
        simp [hfa, h1]

theorem forall₂_names_eq {rows : List PgIngredient} {ins : List GqlIngredient}
    (h : List.Forall₂ (fun row ni => row.name = ni.name) rows ins) :
    rows.map (fun r => r.name) = ins.map (fun i => i.name) := by
  induction h with
  | nil => rfl
  | cons hr ht ih => simp [hr, ih]

theorem forall₂_zip_name_qty {rows : List PgIngredient} {ins : List GqlIngredient}
    (h : List.Forall₂ (fun row ni => row.name = ni.name) rows ins) :
    (rows.zip ins).map (fun q => ((q.1.name : String), (q.2.qty : String))) =
      ins.map (fun i => (i.name, i.qty)) := by
  induction h with
  | nil => rfl
  | cons hr ht ih => simp [List.zip_cons_cons, hr, ih]

theorem joinIngredients_resolved {s : Store} {l : List (PgIngredient × GqlIngredient)}
    {rid : Nat}
    (hres : ∀ q ∈ l, s.ingredients.find? (fun i => i.id = q.1.id) = some q.1) :
    joinIngredients s (l.map (fun q =>
      ({ ingredient_id := q.1.id, recipe_id := rid, qty := q.2.qty } : PgRecipeIngredient))) =
      l.map (fun q =>
        (({ ingredient_id := q.1.id, recipe_id := rid, qty := q.2.qty } : PgRecipeIngredient),
          q.1)) := by
  induction l with
  | nil => rfl
  | cons q t ih =>
    rw [List.map_cons, List.map_cons]
    unfold joinIngredients at ih ⊢
    rw [List.filterMap_cons]
    have hq := hres q (List.mem_cons_self q t)
    dsimp only []
    rw [hq]
    dsimp only [Option.map_some']
    rw [ih (fun q1 hq1 => hres q1 (List.mem_cons_of_mem q hq1))]

theorem insert_recipe_ok_elim {s : Store} {nr : GqlNewRecipe} {g : GqlRecipe} {s1 : Store}
    (h : insert_recipe s nr = (.ok g, s1)) :
    (nr.ingredients.map (fun i => i.name)).Nodup ∧
    ((newAssocRows s nr).map assocKey).Nodup ∧
    g = GqlRecipe.from_pg (insRecipeRow s nr)
      ((insAssocsPair s nr).1.zip (insIngsPair s nr).1) ∧
    s1 = (insAssocsPair s nr).2 := by
  simp only [insert_recipe, transaction] at h
  cases hsteps : insert_recipe_steps s nr with
  | error e =>
    rw [hsteps] at h
    simp at h
  | ok q =>
    obtain ⟨gq, sq⟩ := q
    rw [hsteps] at h
    simp only [Prod.mk.injEq] at h
    obtain ⟨hg, hs1⟩ := h
    obtain rfl := Except.ok.inj hg
    subst hs1
    have hnd1 : (nr.ingredients.map (fun i => i.name)).Nodup := by
      by_contra hcon
      have herr : insert_recipe_steps s nr = .error cannotAffectRowTwiceMsg := by
        conv_lhs => unfold insert_recipe_steps
        conv_lhs => unfold upsert_ingredients
        dsimp only []
        rw [if_neg hcon]
      rw [herr] at hsteps
      exact Except.noConfusion hsteps
    have hnd2 : ((newAssocRows s nr).map assocKey).Nodup := by
      by_contra hcon
      have herr : insert_recipe_steps s nr = .error cannotAffectRowTwiceMsg := by
        conv_lhs => unfold insert_recipe_steps
        conv_lhs => unfold upsert_ingredients
        dsimp only []
        rw [if_pos hnd1]
        conv_lhs => unfold upsert_recipe_ingredients
        dsimp only []
        rw [if_neg hcon]
      rw [herr] at hsteps
      exact Except.noConfusion hsteps
    have hok : insert_recipe_steps s nr =
        .ok (GqlRecipe.from_pg (insRecipeRow s nr)
            ((insAssocsPair s nr).1.zip (insIngsPair s nr).1),
          (insAssocsPair s nr).2) := by
      conv_lhs => unfold insert_recipe_steps
      conv_lhs => unfold upsert_ingredients
      dsimp only []
      rw [if_pos hnd1]
      conv_lhs => unfold upsert_recipe_ingredients
      dsimp only []
      rw [if_pos hnd2]
    rw [hok] at hsteps
    obtain ⟨hgq, hsq⟩ := Prod.mk.injEq .. ▸ Except.ok.inj hsteps
    exact ⟨hnd1, hnd2, hgq.symm ▸ rfl, hsq.symm ▸ rfl⟩

theorem forall₂_mem_left {α β : Type} {R : α → β → Prop} {l1 : List α} {l2 : List β}
    (h : List.Forall₂ R l1 l2) : ∀ a ∈ l1, ∃ b ∈ l2, R a b := by
  induction h with
  | nil => intro a ha; simp at ha
  | cons hr ht ih =>
    intro a ha
    rcases List.mem_cons.mp ha with rfl | hm
    · exact ⟨_, List.mem_cons_self _ _, hr⟩
    · obtain ⟨b, hb, hrb⟩ := ih a hm
      exact ⟨b, List.mem_cons_of_mem _ hb, hrb⟩

/-- C4 counterexample: the round-trip fails as stated when the recipe name
already exists with other associations.  Cake already has a Sugar association;
re-inserting Cake with only Flour succeeds, but `get_recipe_by_name` then
returns Sugar as well, so the returned pair set is strictly larger than the
inserted one. -/
theorem c4_counterexample :
    ¬ (∀ (nr : GqlNewRecipe) (g : GqlRecipe) (s1 : Store),
        insert_recipe storeC4 nr = (.ok g, s1) →
        ∃ g1, get_recipe_by_name s1 nr.name = .ok (some g1) ∧
          ∀ p : String × String,
            p ∈ g1.ingredients.map (fun i => (i.name, i.qty)) ↔
            p ∈ nr.ingredients.map (fun i => (i.name, i.qty))) := by
  intro hclaim
  obtain ⟨g1, hok, hiff⟩ := hclaim newRecipeC4
    { name := "Cake", ingredients := [⟨"Flour", "2 cups"⟩] }
    { recipes := [⟨1, "Cake"⟩]
      ingredients := [⟨1, "Sugar"⟩, ⟨2, "Flour"⟩]
      recipe_ingredients := [⟨1, 1, "1 cup"⟩, ⟨2, 1, "2 cups"⟩] }
    (by decide)
  have hval : get_recipe_by_name
      ({ recipes := [⟨1, "Cake"⟩]
         ingredients := [⟨1, "Sugar"⟩, ⟨2, "Flour"⟩]
         recipe_ingredients := [⟨1, 1, "1 cup"⟩, ⟨2, 1, "2 cups"⟩] } : Store)
      newRecipeC4.name =
      .ok (some { name := "Cake", ingredients :=
        [⟨"Sugar", "1 cup"⟩, ⟨"Flour", "2 cups"⟩] }) := by decide
  have hg1 : g1 = { name := "Cake", ingredients :=
      [⟨"Sugar", "1 cup"⟩, ⟨"Flour", "2 cups"⟩] } :=
    (Option.some.inj (Except.ok.inj (hval.symm.trans hok))).symm
  rw [hg1] at hiff
  have hmem := (hiff ("Sugar", "1 cup")).mp (by decide)
  exact absurd hmem (by decide)

/-- C4 (amended): for every NewRecipe whose name is NOT already a stored
recipe name, a successful `insert_recipe` followed by `get_recipe_by_name`
round-trips: the returned (name, quantity) pair set equals the inserted pair
set. -/
theorem c4_roundtrip_fresh (s : Store) (nr : GqlNewRecipe) (g : GqlRecipe) (s1 : Store)
    (hwf : WF s)
    (hfresh : ∀ r ∈ s.recipes, r.name ≠ nr.name)
    (hins : insert_recipe s nr = (.ok g, s1)) :
    ∃ g1, get_recipe_by_name s1 nr.name = .ok (some g1) ∧
      ∀ p : String × String,
        p ∈ g1.ingredients.map (fun i => (i.name, i.qty)) ↔
        p ∈ nr.ingredients.map (fun i => (i.name, i.qty)) := by
  obtain ⟨hidRec, hnameRec, hidIng, hnameIng, hkeys, href⟩ := hwf
  obtain ⟨hnd1, hnd2, hg, hs1⟩ := insert_recipe_ok_elim hins
  have hr0 : upsert_recipe s nr =
      (⟨nextRecipeId s, nr.name⟩,
        { s with recipes := s.recipes ++ [⟨nextRecipeId s, nr.name⟩] }) :=
    upsert_recipe_fresh hfresh
  have hidA : ((upsert_recipe s nr).2.ingredients.map (fun i => i.id)).Nodup := by
    rw [hr0]
    exact hidIng
  have hnameA : ((upsert_recipe s nr).2.ingredients.map (fun i => i.name)).Nodup := by
    rw [hr0]
    exact hnameIng
  obtain ⟨hBrec, hBri, ⟨ext, hBing⟩, hBid, hBname, hBf2⟩ :=
    upsert_ingredients_go_spec nr.ingredients (upsert_recipe s nr).2 hidA hnameA
  have hArec : (upsert_recipe s nr).2.recipes =
      s.recipes ++ [⟨nextRecipeId s, nr.name⟩] := by rw [hr0]
  have hAri : (upsert_recipe s nr).2.recipe_ingredients = s.recipe_ingredients := by
    rw [hr0]
  have hAing : (upsert_recipe s nr).2.ingredients = s.ingredients := by rw [hr0]
  rw [hArec] at hBrec
  rw [hAri] at hBri
  rw [hAing] at hBing
  have hr0id : (insRecipeRow s nr).id = nextRecipeId s := by
    rw [show insRecipeRow s nr = (upsert_recipe s nr).1 from rfl, hr0]
  have hnas : ∀ na ∈ newAssocRows s nr, na.recipe_id = nextRecipeId s := by
    intro na hna
    rw [List.mem_map] at hna
    obtain ⟨q, hq, hqe⟩ := hna
    rw [← hqe]
    exact hr0id
  have hdisj : ∀ na ∈ newAssocRows s nr,
      ∀ a ∈ (insIngsPair s nr).2.recipe_ingredients, assocKey a ≠ assocKey na := by
    intro na hna a ha
    rw [hBri] at ha
    obtain ⟨⟨r, hrmem, hrid⟩, _⟩ := href a ha
    have hlt : a.recipe_id < nextRecipeId s := hrid ▸ nextRecipeId_gt hrmem
    intro hkey
    have h1 : a.recipe_id = na.recipe_id := congrArg Prod.fst hkey
    rw [hnas na hna] at h1
    omega
  have happ := upsert_assocs_go_append hnd2 hdisj
  have hs1x : s1 = { (insIngsPair s nr).2 with recipe_ingredients :=
      (insIngsPair s nr).2.recipe_ingredients ++ newAssocRows s nr } := by
    rw [hs1, show insAssocsPair s nr =
      upsert_assocs_go (insIngsPair s nr).2 (newAssocRows s nr) from rfl, happ]
  have hs1rec : s1.recipes = s.recipes ++ [⟨nextRecipeId s, nr.name⟩] := by
    rw [hs1x]
    exact hBrec
  have hs1ingB : s1.ingredients = (insIngsPair s nr).2.ingredients := by
    rw [hs1x]
  have hs1ri : s1.recipe_ingredients =
      s.recipe_ingredients ++ newAssocRows s nr := by
    rw [hs1x]
    dsimp only []
    rw [hBri]
  have hfind : s1.recipes.find? (fun r => r.name = nr.name) =
      some ⟨nextRecipeId s, nr.name⟩ := by
    rw [hs1rec, List.find?_append,
      List.find?_eq_none.mpr (fun r hr => by simpa using hfresh r hr)]
    simp
  have hfilter : s1.recipe_ingredients.filter
      (fun a => a.recipe_id = nextRecipeId s) = newAssocRows s nr := by
    rw [hs1ri, List.filter_append]
    have h01 : s.recipe_ingredients.filter
        (fun a => a.recipe_id = nextRecipeId s) = [] := by
      rw [List.filter_eq_nil_iff]
      intro a ha
      simp only [decide_eq_true_eq]
      obtain ⟨⟨r, hrmem, hrid⟩, _⟩ := href a ha
      have := nextRecipeId_gt hrmem
      omega
    have h02 : (newAssocRows s nr).filter
        (fun a => a.recipe_id = nextRecipeId s) = newAssocRows s nr := by
      rw [List.filter_eq_self]
      intro a ha
      simp only [decide_eq_true_eq]
      exact hnas a ha
    rw [h01, h02, List.nil_append]
  have hres : ∀ q ∈ (insIngsPair s nr).1.zip nr.ingredients,
      s1.ingredients.find? (fun i => i.id = q.1.id) = some q.1 := by
    intro q hq
    have hq1 : q.1 ∈ (insIngsPair s nr).1 := (List.of_mem_zip hq).1
    obtain ⟨ni, hni, hRni⟩ := forall₂_mem_left hBf2 q.1 hq1
    have hmem1 : q.1 ∈ s1.ingredients := by
      rw [hs1ingB]
      exact hRni.2
    have hid1 : (s1.ingredients.map (fun i => i.id)).Nodup := by
      rw [hs1ingB]
      exact hBid
    exact find?_key_unique (fun i => i.id) hid1 hmem1 rfl
  have hjoin := @joinIngredients_resolved s1
    ((insIngsPair s nr).1.zip nr.ingredients) ((insRecipeRow s nr).id) hres
  refine ⟨GqlRecipe.from_pg ⟨nextRecipeId s, nr.name⟩
      (recipePairs s1 (nextRecipeId s)), ?_, ?_⟩
  · conv_lhs => unfold get_recipe_by_name
    rw [hfind]
  · intro p
    have hname2 : List.Forall₂ (fun row ni => row.name = ni.name)
        (insIngsPair s nr).1 nr.ingredients :=
      List.Forall₂.imp (fun a b hab => hab.1) hBf2
    have hlist : (GqlRecipe.from_pg (⟨nextRecipeId s, nr.name⟩ : PgRecipe)
        (recipePairs s1 (nextRecipeId s))).ingredients.map (fun i => (i.name, i.qty)) =
        nr.ingredients.map (fun i => (i.name, i.qty)) := by
      simp only [GqlRecipe.from_pg]
      rw [recipePairs, hfilter]
      rw [show newAssocRows s nr = ((insIngsPair s nr).1.zip nr.ingredients).map
        (fun q => ({ ingredient_id := q.1.id, recipe_id := (insRecipeRow s nr).id, qty := q.2.qty } : PgRecipeIngredient)) from rfl, hjoin]
      rw [List.map_map, List.map_map]
      exact (List.map_congr_left (fun q hq => rfl)).trans (forall₂_zip_name_qty hname2)
    rw [hlist]

/-- C4 witness: inserting Pancakes (a fresh name) into `storeC4` and reading
it back returns exactly the inserted (name, quantity) pairs. -/
theorem c4_roundtrip_fresh_witness :
    ∃ g1, get_recipe_by_name
        ({ recipes := [⟨1, "Cake"⟩, ⟨2, "Pancakes"⟩]
           ingredients := [⟨1, "Sugar"⟩, ⟨2, "Flour"⟩, ⟨3, "Egg"⟩]
           recipe_ingredients := [⟨1, 1, "1 cup"⟩, ⟨2, 2, "2 cups"⟩, ⟨3, 2, "2"⟩] } : Store)
        newRecipeC4b.name = .ok (some g1) ∧
      ∀ p : String × String,
        p ∈ g1.ingredients.map (fun i => (i.name, i.qty)) ↔
        p ∈ newRecipeC4b.ingredients.map (fun i => (i.name, i.qty)) :=
  c4_roundtrip_fresh storeC4 newRecipeC4b
    { name := "Pancakes", ingredients := [⟨"Flour", "2 cups"⟩, ⟨"Egg", "2"⟩] }
    { recipes := [⟨1, "Cake"⟩, ⟨2, "Pancakes"⟩]
      ingredients := [⟨1, "Sugar"⟩, ⟨2, "Flour"⟩, ⟨3, "Egg"⟩]
      recipe_ingredients := [⟨1, 1, "1 cup"⟩, ⟨2, 2, "2 cups"⟩, ⟨3, 2, "2"⟩] }
    (by decide) (by decide) (by decide)

theorem forall₂_mem_right_zip {α β : Type} {R : α → β → Prop} {l1 : List α} {l2 : List β}
    (h : List.Forall₂ R l1 l2) : ∀ b ∈ l2, ∃ a, (a, b) ∈ l1.zip l2 ∧ R a b := by
  induction h with
  | nil => intro b hb; simp at hb
  | cons hr ht ih =>
    intro b hb
    rcases List.mem_cons.mp hb with rfl | hm
    · exact ⟨_, by rw [List.zip_cons_cons]; exact List.mem_cons_self _ _, hr⟩
    · obtain ⟨a, haz, har⟩ := ih b hm
      exact ⟨a, by rw [List.zip_cons_cons]; exact List.mem_cons_of_mem _ haz, har⟩

theorem forall₂_rel_of_mem_zip {α β : Type} {R : α → β → Prop} {l1 : List α} {l2 : List β}
    (h : List.Forall₂ R l1 l2) : ∀ p ∈ l1.zip l2, R p.1 p.2 := by
  induction h with
  | nil => intro p hp; simp at hp
  | cons hr ht ih =>
    intro p hp
    rw [List.zip_cons_cons] at hp
    rcases List.mem_cons.mp hp with rfl | hm
    · exact hr
    · exact ih p hm

theorem insert_state_core (s sA : Store) (nr : GqlNewRecipe) (r0 : PgRecipe) (s1 : Store)
    (hA : upsert_recipe s nr = (r0, sA))
    (hAing : sA.ingredients = s.ingredients)
    (hAri : sA.recipe_ingredients = s.recipe_ingredients)
    (hArecIds : (sA.recipes.map (fun r => r.id)).Nodup)
    (hArecNames : (sA.recipes.map (fun r => r.name)).Nodup)
    (hr0mem : r0 ∈ sA.recipes)
    (hidIng : (s.ingredients.map (fun i => i.id)).Nodup)
    (hnameIng : (s.ingredients.map (fun i => i.name)).Nodup)
    (hkeys : (s.recipe_ingredients.map assocKey).Nodup)
    (hrefI : ∀ a ∈ s.recipe_ingredients, ∃ i ∈ s.ingredients, i.id = a.ingredient_id)
    (hrefR : ∀ a ∈ s.recipe_ingredients, ∃ r ∈ sA.recipes, r.id = a.recipe_id)
    (hnd1 : (nr.ingredients.map (fun i => i.name)).Nodup)
    (hnd2 : ((newAssocRows s nr).map assocKey).Nodup)
    (hs1e : s1 = (insAssocsPair s nr).2) :
    WF s1 ∧ (∃ ext, s1.ingredients = s.ingredients ++ ext) ∧
    s1.recipes = sA.recipes ∧
    (∀ ni ∈ nr.ingredients, ∃ row ∈ s1.ingredients, row.name = ni.name ∧
      ∀ a ∈ s1.recipe_ingredients,
        a.recipe_id = r0.id → a.ingredient_id = row.id → a.qty = ni.qty) := by
  have hidA : ((upsert_recipe s nr).2.ingredients.map (fun i => i.id)).Nodup := by
    rw [hA]
    rw [show (r0, sA).2 = sA from rfl, hAing]
    exact hidIng
  have hnameA : ((upsert_recipe s nr).2.ingredients.map (fun i => i.name)).Nodup := by
    rw [hA, show (r0, sA).2 = sA from rfl, hAing]
    exact hnameIng
  obtain ⟨hBrec, hBri, ⟨ext, hBing⟩, hBid, hBname, hBf2⟩ :=
    upsert_ingredients_go_spec nr.ingredients (upsert_recipe s nr).2 hidA hnameA
  have hAri2 : (upsert_recipe s nr).2.recipe_ingredients = s.recipe_ingredients := by
    rw [hA]
    exact hAri
  have hAing2 : (upsert_recipe s nr).2.ingredients = s.ingredients := by
    rw [hA]
    exact hAing
  have hArec2 : (upsert_recipe s nr).2.recipes = sA.recipes := by rw [hA]
  rw [hAri2] at hBri
  rw [hAing2] at hBing
  rw [hArec2] at hBrec
  have hr0e : insRecipeRow s nr = r0 := by
    rw [show insRecipeRow s nr = (upsert_recipe s nr).1 from rfl, hA]
  -- the final store after the association upsert
  have hpres := upsert_assocs_go_preserves (newAssocRows s nr) (insIngsPair s nr).2
  have hs1rec : s1.recipes = sA.recipes := by
    rw [hs1e]
    rw [show (insAssocsPair s nr).2 =
      (upsert_assocs_go (insIngsPair s nr).2 (newAssocRows s nr)).2 from rfl]
    rw [hpres.1]
    exact hBrec
  have hs1ing : s1.ingredients = (insIngsPair s nr).2.ingredients := by
    rw [hs1e]
    exact hpres.2
  have hs1ingS : s1.ingredients = s.ingredients ++ ext := by
    rw [hs1ing]
    exact hBing
  have hchar : ∀ a : PgRecipeIngredient, a ∈ s1.recipe_ingredients ↔
      ((a ∈ s.recipe_ingredients ∧ assocKey a ∉ (newAssocRows s nr).map assocKey) ∨
        a ∈ newAssocRows s nr) := by
    intro a
    rw [hs1e]
    rw [show (insAssocsPair s nr).2 =
      (upsert_assocs_go (insIngsPair s nr).2 (newAssocRows s nr)).2 from rfl]
    rw [mem_upsert_assocs_go hnd2 a, hBri]
  have hnasmem : ∀ na ∈ newAssocRows s nr,
      na.recipe_id = r0.id ∧ ∃ row ∈ s1.ingredients, na.ingredient_id = row.id := by
    intro na hna
    rw [List.mem_map] at hna
    obtain ⟨q, hq, hqe⟩ := hna
    constructor
    · rw [← hqe]
      show (insRecipeRow s nr).id = r0.id
      rw [hr0e]
    · have hq1 : q.1 ∈ (insIngsPair s nr).1 := (List.of_mem_zip hq).1
      obtain ⟨ni, hni, hRni⟩ := forall₂_mem_left hBf2 q.1 hq1
      refine ⟨q.1, ?_, ?_⟩
      · rw [hs1ing]
        exact hRni.2
      · rw [← hqe]
  refine ⟨⟨?_, ?_, ?_, ?_, ?_, ?_⟩, ⟨ext, hs1ingS⟩, hs1rec, ?_⟩
  · rw [hs1rec]
    exact hArecIds
  · rw [hs1rec]
    exact hArecNames
  · rw [hs1ing]
    exact hBid
  · rw [hs1ing]
    exact hBname
  · rw [hs1e, show (insAssocsPair s nr).2 =
      (upsert_assocs_go (insIngsPair s nr).2 (newAssocRows s nr)).2 from rfl]
    refine upsert_assocs_go_keys_nodup ?_ hnd2
    rw [hBri]
    exact hkeys
  · intro a ha
    rw [hchar a] at ha
    rcases ha with ⟨hold, _⟩ | hnew
    · constructor
      · obtain ⟨r, hr, hrid⟩ := hrefR a hold
        exact ⟨r, by rw [hs1rec]; exact hr, hrid⟩
      · obtain ⟨i, hi, hiid⟩ := hrefI a hold
        exact ⟨i, by rw [hs1ingS]; exact List.mem_append_left _ hi, hiid⟩
    · obtain ⟨hrid, row, hrow, hiid⟩ := hnasmem a hnew
      constructor
      · exact ⟨r0, by rw [hs1rec]; exact hr0mem, hrid.symm⟩
      · exact ⟨row, hrow, hiid.symm⟩
  · intro ni hni
    obtain ⟨row, hzipmem, hrowname, hrowmem⟩ := forall₂_mem_right_zip hBf2 ni hni
    refine ⟨row, by rw [hs1ing]; exact hrowmem, hrowname, ?_⟩
    intro a ha harid haiid
    rw [hchar a] at ha
    have hna : ({ ingredient_id := row.id, recipe_id := (insRecipeRow s nr).id, qty := ni.qty } : PgRecipeIngredient) ∈ newAssocRows s nr := by
      rw [List.mem_map]
      exact ⟨(row, ni), hzipmem, rfl⟩
    rcases ha with ⟨hold, hnotin⟩ | hnew
    · exfalso
      apply hnotin
      rw [List.mem_map]
      refine ⟨_, hna, ?_⟩
      show ((insRecipeRow s nr).id, row.id) = assocKey a
      rw [hr0e, ← harid, ← haiid]
      rfl
    · rw [List.mem_map] at hnew
      obtain ⟨q, hq, hqe⟩ := hnew
      have hrelq := forall₂_rel_of_mem_zip hBf2 q hq
      have hq1id : q.1.id = a.ingredient_id := by
        rw [← hqe]
      have hq1row : q.1 = row := by
        refine List.inj_on_of_nodup_map hBid ?_ hrowmem ?_
        · exact hrelq.2
        · show q.1.id = row.id
          rw [hq1id, haiid]
      have hq2 : q.2 = ni := by
        refine List.inj_on_of_nodup_map hnd1 (List.of_mem_zip hq).2 hni ?_
        show q.2.name = ni.name
        rw [← hrelq.1, hq1row, hrowname]
      rw [← hqe]
      show q.2.qty = ni.qty
      rw [hq2]

theorem insert_recipe_state (s : Store) (nr : GqlNewRecipe) (g : GqlRecipe) (s1 : Store)
    (hwf : WF s) (hins : insert_recipe s nr = (.ok g, s1)) :
    WF s1 ∧
    ∃ rcp ∈ s1.recipes, rcp.name = nr.name ∧
      ∀ ni ∈ nr.ingredients, ∃ row ∈ s1.ingredients, row.name = ni.name ∧
        ∀ a ∈ s1.recipe_ingredients,
          a.recipe_id = rcp.id → a.ingredient_id = row.id → a.qty = ni.qty := by
  obtain ⟨hidRec, hnameRec, hidIng, hnameIng, hkeys, href⟩ := hwf
  obtain ⟨hnd1, hnd2, hg, hs1e⟩ := insert_recipe_ok_elim hins
  cases hf : s.recipes.find? (fun x => x.name = nr.name) with
  | some rcp =>
    have hA : upsert_recipe s nr = (rcp, s) := upsert_recipe_found hf
    have hrcpname : rcp.name = nr.name := by simpa using List.find?_some hf
    obtain ⟨hWF1, hext, hs1rec, hrows⟩ := insert_state_core s s nr rcp s1 hA rfl rfl
      hidRec hnameRec (List.mem_of_find?_eq_some hf) hidIng hnameIng hkeys
      (fun a ha => (href a ha).2) (fun a ha => (href a ha).1) hnd1 hnd2 hs1e
    exact ⟨hWF1, rcp, by rw [hs1rec]; exact List.mem_of_find?_eq_some hf,
      hrcpname, hrows⟩
  | none =>
    have hfr : ∀ r ∈ s.recipes, r.name ≠ nr.name := by
      rw [List.find?_eq_none] at hf
      intro r hr
      simpa using hf r hr
    have hA := upsert_recipe_fresh hfr
    have hArecIds : ((({ s with recipes :=
        s.recipes ++ [⟨nextRecipeId s, nr.name⟩] } : Store)).recipes.map
          (fun r => r.id)).Nodup := by
      dsimp only []
      rw [List.map_append]
      refine nodup_concat_of hidRec ?_
      intro hmem
      rw [List.mem_map] at hmem
      obtain ⟨r, hr, hre⟩ := hmem
      have hre2 : r.id = nextRecipeId s := hre
      have := nextRecipeId_gt hr
      omega
    have hArecNames : ((({ s with recipes :=
        s.recipes ++ [⟨nextRecipeId s, nr.name⟩] } : Store)).recipes.map
          (fun r => r.name)).Nodup := by
      dsimp only []
      rw [List.map_append]
      refine nodup_concat_of hnameRec ?_
      intro hmem
      rw [List.mem_map] at hmem
      obtain ⟨r, hr, hre⟩ := hmem
      exact hfr r hr hre
    obtain ⟨hWF1, hext, hs1rec, hrows⟩ := insert_state_core s _ nr
      ⟨nextRecipeId s, nr.name⟩ s1 hA rfl rfl hArecIds hArecNames
      (by dsimp only []; exact List.mem_append_right _ (by simp))
      hidIng hnameIng hkeys (fun a ha => (href a ha).2)
      (fun a ha => by
        obtain ⟨r, hr, hrid⟩ := (href a ha).1
        exact ⟨r, by dsimp only []; exact List.mem_append_left _ hr, hrid⟩)
      hnd1 hnd2 hs1e
    refine ⟨hWF1, ⟨nextRecipeId s, nr.name⟩, ?_, rfl, hrows⟩
    rw [hs1rec]
    dsimp only []
    exact List.mem_append_right _ (by simp)

/-- C5: calling `insert_recipe` a second time with the same recipe name and
the same ingredient names but a changed quantity leaves exactly one recipe row
with that name, exactly one ingredient row per requested name, and every
association of that recipe with a requested ingredient carries the second
call's quantity. -/
theorem c5_idempotent_upsert (s : Store) (nr1 nr2 : GqlNewRecipe)
    (g1 g2 : GqlRecipe) (s1 s2 : Store)
    (hwf : WF s)
    (hname : nr2.name = nr1.name)
    (hsame : nr1.ingredients.map (fun i => i.name) = nr2.ingredients.map (fun i => i.name))
    (hdiffer : ∃ i1 ∈ nr1.ingredients, ∃ i2 ∈ nr2.ingredients,
      i1.name = i2.name ∧ i1.qty ≠ i2.qty)
    (hins1 : insert_recipe s nr1 = (.ok g1, s1))
    (hins2 : insert_recipe s1 nr2 = (.ok g2, s2)) :
    s2.recipes.countP (fun r => r.name = nr2.name) = 1 ∧
    (∀ ni ∈ nr2.ingredients, s2.ingredients.countP (fun i => i.name = ni.name) = 1) ∧
    (∀ ni ∈ nr2.ingredients, ∀ r ∈ s2.recipes, r.name = nr2.name →
      ∀ ing ∈ s2.ingredients, ing.name = ni.name →
      ∀ a ∈ s2.recipe_ingredients,
        a.recipe_id = r.id → a.ingredient_id = ing.id → a.qty = ni.qty) := by
  obtain ⟨hwf1, _⟩ := insert_recipe_state s nr1 g1 s1 hwf hins1
  obtain ⟨hwf2, rcp2, hrcp2mem, hrcp2name, hrows2⟩ :=
    insert_recipe_state s1 nr2 g2 s2 hwf1 hins2
  obtain ⟨hidRec2, hnameRec2, hidIng2, hnameIng2, _, _⟩ := hwf2
  refine ⟨?_, ?_, ?_⟩
  · exact countP_key_eq_one (fun r => r.name) hnameRec2 ⟨rcp2, hrcp2mem, hrcp2name⟩
  · intro ni hni
    obtain ⟨row, hrowm, hrown, _⟩ := hrows2 ni hni
    exact countP_key_eq_one (fun i => i.name) hnameIng2 ⟨row, hrowm, hrown⟩
  · intro ni hni r hr hrname ing hing hingname a ha harid haiid
    obtain ⟨row, hrowm, hrown, hqty⟩ := hrows2 ni hni
    have hreq : r = rcp2 :=
      List.inj_on_of_nodup_map hnameRec2 hr hrcp2mem (by rw [hrname, hrcp2name])
    have hieq : ing = row :=
      List.inj_on_of_nodup_map hnameIng2 hing hrowm (by rw [hingname, hrown])
    exact hqty a ha (hreq ▸ harid) (hieq ▸ haiid)

/-- C5 witness: inserting Pie twice into `storeC2` with the Apple quantity
changed from "3" to "4": one Pie row, one row per ingredient name, and the
Apple association carries "4". -/
theorem c5_idempotent_upsert_witness :
    (let s2 := (insert_recipe (insert_recipe storeC2 newRecipeC5a).2 newRecipeC5b).2
     s2.recipes.countP (fun r => r.name = newRecipeC5b.name) = 1 ∧
     (∀ ni ∈ newRecipeC5b.ingredients,
       s2.ingredients.countP (fun i => i.name = ni.name) = 1) ∧
     (∀ ni ∈ newRecipeC5b.ingredients, ∀ r ∈ s2.recipes, r.name = newRecipeC5b.name →
       ∀ ing ∈ s2.ingredients, ing.name = ni.name →
       ∀ a ∈ s2.recipe_ingredients,
         a.recipe_id = r.id → a.ingredient_id = ing.id → a.qty = ni.qty)) :=
  c5_idempotent_upsert storeC2 newRecipeC5a newRecipeC5b
    { name := "Pie", ingredients := [⟨"Apple", "3"⟩, ⟨"Flour", "1 cup"⟩] }
    { name := "Pie", ingredients := [⟨"Apple", "4"⟩, ⟨"Flour", "1 cup"⟩] }
    (insert_recipe storeC2 newRecipeC5a).2
    (insert_recipe (insert_recipe storeC2 newRecipeC5a).2 newRecipeC5b).2
    (by decide) (by decide) (by decide)
    ⟨⟨"Apple", "3"⟩, by decide, ⟨"Apple", "4"⟩, by decide, by decide, by decide⟩
    (by decide) (by decide)
